import Mathlib

/-!
Verification of the protocol and codec core of the `rdp-rs` RDP client.

Each definition is a shallow embedding of the corresponding Rust item.
Machine integers are modelled as `Nat` (with explicit `% 2^w` where the
source truncates) or `Int` for signed arithmetic.  Fallible code returns
`Except`.  Definitions whose Rust source file is absent from the excerpt
(the `per` module and the `model::data` / `model::error` kernel) are
modelled from the specification and say so in their doc comment.
-/

/-- Error kinds of `model/error.rs`.
Modelled from the spec: the file `src/model/error.rs` is absent from the
excerpt; the spec's section 7 lists the kinds.  `Unknown` wraps platform
errors (end-of-stream reads) and the `num_enum` conversion failures, whose
exact mapping lives in the absent file; no theorem below depends on which
non-listed kind those map to. -/
inductive RdpErrorKind where
  | InvalidConst
  | InvalidSize
  | InvalidCast
  | InvalidData
  | InvalidRespond
  | NotImplemented
  | RleDecode
  | Disconnect
  | Unknown
  deriving DecidableEq, Repr

namespace Rgb

/-- Embedding of `rgb565torgb32` (src/codec/rle.rs lines 315-326): each
16-bit pixel expands to four bytes; the `as u8` casts are the `% 256`. -/
def rgb565torgb32 (input : List Nat) : List Nat :=
  input.flatMap fun v =>
    [((((v &&& 0x1f) * 527) + 23) >>> 6) % 256,
     (((((v >>> 5) &&& 0x3f) * 259) + 33) >>> 6) % 256,
     (((((v >>> 11) &&& 0x1f) * 527) + 23) >>> 6) % 256,
     0xff]

theorem rgb565torgb32_nil : rgb565torgb32 [] = [] := rfl

theorem rgb565torgb32_cons (v : Nat) (l : List Nat) :
    rgb565torgb32 (v :: l) =
      ((((v &&& 0x1f) * 527) + 23) >>> 6) % 256 ::
      (((((v >>> 5) &&& 0x3f) * 259) + 33) >>> 6) % 256 ::
      (((((v >>> 11) &&& 0x1f) * 527) + 23) >>> 6) % 256 ::
      0xff :: rgb565torgb32 l := rfl

theorem rgb565torgb32_length (input : List Nat) :
    (rgb565torgb32 input).length = 4 * input.length := by
  induction input with
  | nil => rfl
  | cons v l ih =>
      rw [rgb565torgb32_cons]
      simp only [List.length_cons, ih]
      ring

theorem rgb565_red_le (v : Nat) : (((v &&& 0x1f) * 527) + 23) >>> 6 ≤ 255 := by
  have h : v &&& 0x1f ≤ 0x1f := Nat.and_le_right
  have : ((v &&& 0x1f) * 527) + 23 ≤ 16360 := by omega
  calc (((v &&& 0x1f) * 527) + 23) >>> 6 = (((v &&& 0x1f) * 527) + 23) / 64 := by
        simp [Nat.shiftRight_eq_div_pow]
    _ ≤ 16360 / 64 := Nat.div_le_div_right this
    _ = 255 := by norm_num

theorem rgb565_green_le (v : Nat) : ((((v >>> 5) &&& 0x3f) * 259) + 33) >>> 6 ≤ 255 := by
  have h : (v >>> 5) &&& 0x3f ≤ 0x3f := Nat.and_le_right
  have : (((v >>> 5) &&& 0x3f) * 259) + 33 ≤ 16350 := by omega
  calc ((((v >>> 5) &&& 0x3f) * 259) + 33) >>> 6
      = ((((v >>> 5) &&& 0x3f) * 259) + 33) / 64 := by
        simp [Nat.shiftRight_eq_div_pow]
    _ ≤ 16350 / 64 := Nat.div_le_div_right this
    _ = 255 := by norm_num

theorem rgb565_blue_le (v : Nat) : ((((v >>> 11) &&& 0x1f) * 527) + 23) >>> 6 ≤ 255 := by
  have h : (v >>> 11) &&& 0x1f ≤ 0x1f := Nat.and_le_right
  have : (((v >>> 11) &&& 0x1f) * 527) + 23 ≤ 16360 := by omega
  calc ((((v >>> 11) &&& 0x1f) * 527) + 23) >>> 6
      = ((((v >>> 11) &&& 0x1f) * 527) + 23) / 64 := by
        simp [Nat.shiftRight_eq_div_pow]
    _ ≤ 16360 / 64 := Nat.div_le_div_right this
    _ = 255 := by norm_num

theorem rgb565torgb32_get (input : List Nat) (i v : Nat)
    (hv : input.get? i = some v) :
    (rgb565torgb32 input).get? (4 * i) = some ((((v &&& 0x1f) * 527) + 23) >>> 6) ∧
    (rgb565torgb32 input).get? (4 * i + 1) =
      some (((((v >>> 5) &&& 0x3f) * 259) + 33) >>> 6) ∧
    (rgb565torgb32 input).get? (4 * i + 2) =
      some (((((v >>> 11) &&& 0x1f) * 527) + 23) >>> 6) ∧
    (rgb565torgb32 input).get? (4 * i + 3) = some 0xff := by
  induction input generalizing i with
  | nil => simp at hv
  | cons w l ih =>
      cases i with
      | zero =>
          simp only [List.get?_cons_zero, Option.some.injEq] at hv
          subst hv
          rw [rgb565torgb32_cons]
          refine ⟨?_, ?_, ?_, rfl⟩
          · simp [Nat.mod_eq_of_lt (Nat.lt_succ_of_le (rgb565_red_le _))]
          · simp [Nat.mod_eq_of_lt (Nat.lt_succ_of_le (rgb565_green_le _))]
          · simp [Nat.mod_eq_of_lt (Nat.lt_succ_of_le (rgb565_blue_le _))]
      | succ j =>
          simp only [List.get?_cons_succ] at hv
          have h4 : 4 * (j + 1) = 4 * j + 4 := by ring
          obtain ⟨h0, h1, h2, h3⟩ := ih j hv
          rw [rgb565torgb32_cons]
          refine ⟨?_, ?_, ?_, ?_⟩
          · rw [h4]; simpa using h0
          · rw [h4]; simpa using h1
          · rw [h4]; simpa using h2
          · rw [h4]; simpa using h3

end Rgb

/-- Claim C7: `rgb565torgb32` returns a vector of length `4 × len(input)`
whose every fourth byte is `0xFF`, and pixel `i`'s first three bytes are
`((v AND 0x1F)*527+23) >> 6`, `(((v>>5) AND 0x3F)*259+33) >> 6` and
`(((v>>11) AND 0x1F)*527+23) >> 6` for `v = input[i]`. -/
theorem claim_C7_rgb565torgb32 (input : List Nat) :
    (Rgb.rgb565torgb32 input).length = 4 * input.length ∧
    (∀ i v, input.get? i = some v →
      (Rgb.rgb565torgb32 input).get? (4 * i + 3) = some 0xff ∧
      (Rgb.rgb565torgb32 input).get? (4 * i) =
        some ((((v &&& 0x1f) * 527) + 23) >>> 6) ∧
      (Rgb.rgb565torgb32 input).get? (4 * i + 1) =
        some (((((v >>> 5) &&& 0x3f) * 259) + 33) >>> 6) ∧
      (Rgb.rgb565torgb32 input).get? (4 * i + 2) =
        some (((((v >>> 11) &&& 0x1f) * 527) + 23) >>> 6)) := by
  refine ⟨Rgb.rgb565torgb32_length input, fun i v hv => ?_⟩
  obtain ⟨h0, h1, h2, h3⟩ := Rgb.rgb565torgb32_get input i v hv
  exact ⟨h3, h0, h1, h2⟩

namespace Uni

/-- Embedding of `Unicode::to_utf16_le` (src/model/unicode.rs): the UTF-16
code units of the string (`str::encode_utf16`), with a surrogate pair for
scalar values at or above `0x10000`. -/
def utf16Units (c : Char) : List Nat :=
  if c.toNat < 0x10000 then [c.toNat]
  else [0xD800 + (c.toNat - 0x10000) / 0x400, 0xDC00 + (c.toNat - 0x10000) % 0x400]

/-- Embedding of `Unicode::to_utf16_le`:
`self.encode_utf16().flat_map(u16::to_le_bytes).collect()`. -/
def to_utf16_le (s : String) : List Nat :=
  (s.data.flatMap utf16Units).flatMap fun u => [u % 256, u / 256]

/-- Modelled from the spec: UTF-16LE byte-pair decoding, the inverse
direction of the round-trip stated in section 8 of the spec.  Pairs of
bytes become little-endian code units; an odd byte count fails. -/
def bytesToUnits : List Nat → Option (List Nat)
  | [] => some []
  | _ :: [] => none
  | b0 :: b1 :: rest => (bytesToUnits rest).map fun us => (b0 + 256 * b1) :: us

/-- Modelled from the spec: UTF-16 code-unit decoding.  A unit outside the
surrogate range is a scalar; a high surrogate must be followed by a low
surrogate; anything else fails. -/
def unitsToChars : List Nat → Option (List Char)
  | [] => some []
  | u :: rest =>
    if u < 0xD800 ∨ (0xDFFF < u ∧ u < 0x110000) then
      (unitsToChars rest).map fun cs => Char.ofNat u :: cs
    else if u < 0xDC00 then
      match rest with
      | [] => none
      | l :: rest' =>
        if 0xDC00 ≤ l ∧ l < 0xE000 then
          (unitsToChars rest').map fun cs =>
            Char.ofNat (0x10000 + (u - 0xD800) * 0x400 + (l - 0xDC00)) :: cs
        else none
    else none

/-- Modelled from the spec: full UTF-16LE decode of a byte vector. -/
def decodeUtf16LE (bytes : List Nat) : Option String :=
  (bytesToUnits bytes).bind fun us => (unitsToChars us).map fun cs => String.mk cs

theorem unitsToChars_scalar (u : Nat) (rest : List Nat)
    (h : u < 0xD800 ∨ (0xDFFF < u ∧ u < 0x110000)) :
    unitsToChars (u :: rest) = (unitsToChars rest).map fun cs => Char.ofNat u :: cs := by
  cases rest with
  | nil => rw [unitsToChars.eq_2, if_pos h]
  | cons l rest' => rw [unitsToChars.eq_3, if_pos h]

theorem unitsToChars_pair (u l : Nat) (rest : List Nat)
    (hns : ¬(u < 0xD800 ∨ (0xDFFF < u ∧ u < 0x110000)))
    (hlt : u < 0xDC00) (hl : 0xDC00 ≤ l ∧ l < 0xE000) :
    unitsToChars (u :: l :: rest) = (unitsToChars rest).map fun cs =>
      Char.ofNat (0x10000 + (u - 0xD800) * 0x400 + (l - 0xDC00)) :: cs := by
  rw [unitsToChars.eq_3, if_neg hns, if_pos hlt, if_pos hl]

theorem utf16Units_lt (c : Char) : ∀ u ∈ utf16Units c, u < 0x10000 := by
  have hv' : c.toNat < 0xd800 ∨ (0xdfff < c.toNat ∧ c.toNat < 0x110000) := c.valid
  intro u hu
  unfold utf16Units at hu
  split at hu
  · simp only [List.mem_singleton] at hu; omega
  · rcases List.mem_pair.mp hu with h | h
    · have : (c.toNat - 0x10000) / 0x400 < 0x400 :=
        Nat.div_lt_of_lt_mul (by omega)
      omega
    · have : (c.toNat - 0x10000) % 0x400 < 0x400 := Nat.mod_lt _ (by omega)
      omega

theorem bytesToUnits_flatMap (us : List Nat) (h : ∀ u ∈ us, u < 0x10000) :
    bytesToUnits (us.flatMap fun u => [u % 256, u / 256]) = some us := by
  induction us with
  | nil => rfl
  | cons u rest ih =>
      have hu : u < 0x10000 := h u (List.mem_cons_self u rest)
      have hrest : ∀ v ∈ rest, v < 0x10000 := fun v hv => h v (List.mem_cons_of_mem _ hv)
      rw [List.flatMap_cons]
      show (bytesToUnits (rest.flatMap fun u => [u % 256, u / 256])).map _ = _
      rw [ih hrest]
      simp only [Option.map_some', Option.some.injEq]
      congr 1
      omega

theorem unitsToChars_flatMap (cs : List Char) :
    unitsToChars (cs.flatMap utf16Units) = some cs := by
  induction cs with
  | nil => rfl
  | cons c rest ih =>
      have hv : c.toNat < 0xd800 ∨ (0xdfff < c.toNat ∧ c.toNat < 0x110000) := c.valid
      rw [List.flatMap_cons]
      by_cases hsmall : c.toNat < 0x10000
      · have hev : utf16Units c = [c.toNat] := by
          unfold utf16Units
          rw [if_pos hsmall]
        rw [hev, List.cons_append, List.nil_append,
          unitsToChars_scalar _ _ (by omega), ih, Option.map_some', Char.ofNat_toNat]
      · have hev : utf16Units c =
            [0xD800 + (c.toNat - 0x10000) / 0x400, 0xDC00 + (c.toNat - 0x10000) % 0x400] := by
          unfold utf16Units
          rw [if_neg hsmall]
        have hqlt : (c.toNat - 0x10000) / 0x400 < 0x400 := Nat.div_lt_of_lt_mul (by omega)
        have hrlt : (c.toNat - 0x10000) % 0x400 < 0x400 := Nat.mod_lt _ (by omega)
        have hqr : 0x400 * ((c.toNat - 0x10000) / 0x400) + (c.toNat - 0x10000) % 0x400
            = c.toNat - 0x10000 := Nat.div_add_mod _ _
        rw [hev, List.cons_append, List.cons_append, List.nil_append,
          unitsToChars_pair _ _ _ (by omega) (by omega) (by omega), ih, Option.map_some']
        have hval : 0x10000 + (0xD800 + (c.toNat - 0x10000) / 0x400 - 0xD800) * 0x400 +
            (0xDC00 + (c.toNat - 0x10000) % 0x400 - 0xDC00) = c.toNat := by omega
        rw [hval, Char.ofNat_toNat]

theorem to_utf16_le_roundtrip (s : String) : decodeUtf16LE (to_utf16_le s) = some s := by
  unfold decodeUtf16LE to_utf16_le
  rw [bytesToUnits_flatMap _ (by
    intro u hu
    obtain ⟨c, _, hc⟩ := List.mem_flatMap.mp hu
    exact utf16Units_lt c u hc)]
  show (unitsToChars (s.data.flatMap utf16Units)).map (fun cs => String.mk cs) = some s
  rw [unitsToChars_flatMap]
  rfl

end Uni

/-- Claim C8: `to_utf16_le("foo") = [102, 0, 111, 0, 111, 0]`, and decoding
`to_utf16_le(s)` as UTF-16LE yields `s` back for every string `s`, so the
transform is injective and left-invertible on strings. -/
theorem claim_C8_to_utf16_le :
    Uni.to_utf16_le "foo" = [102, 0, 111, 0, 111, 0] ∧
    (∀ s : String, Uni.decodeUtf16LE (Uni.to_utf16_le s) = some s) ∧
    Function.Injective Uni.to_utf16_le := by
  refine ⟨by decide, Uni.to_utf16_le_roundtrip, fun s t h => ?_⟩
  have hs := Uni.to_utf16_le_roundtrip s
  rw [h, Uni.to_utf16_le_roundtrip t] at hs
  exact (Option.some_inj.mp hs).symm

namespace Scan

/-- The `minifb::Key` enum (external crate), restricted to the variants the
binary can receive: every variant named in `to_scancode`
(src/bin/mstsc-rs.rs lines 117-227) plus the crate's `Unknown` and `Count`
variants, which fall into the catch-all arm. -/
inductive Key where
  | Escape | Key1 | Key2 | Key3 | Key4 | Key5 | Key6 | Key7 | Key8 | Key9 | Key0
  | Minus | Equal | Backspace | Tab
  | Q | W | E | R | T | Y | U | I | O | P
  | LeftBracket | RightBracket | Enter | LeftCtrl
  | A | S | D | F | G | H | J | K | L
  | Semicolon | Apostrophe | Backquote | LeftShift | Backslash
  | Z | X | C | V | B | N | M
  | Comma | Period | Slash | RightShift | NumPadAsterisk | LeftAlt | Space | CapsLock
  | F1 | F2 | F3 | F4 | F5 | F6 | F7 | F8 | F9 | F10
  | Pause | ScrollLock
  | NumPad7 | NumPad8 | NumPad9 | NumPadMinus
  | NumPad4 | NumPad5 | NumPad6 | NumPadPlus
  | NumPad1 | NumPad2 | NumPad3 | NumPad0 | NumPadDot
  | F11 | F12 | F13 | F14 | F15
  | NumPadEnter | RightCtrl | NumPadSlash | RightAlt | NumLock
  | Home | Up | PageUp | Left | Right | End | Down | PageDown
  | Insert | Delete | LeftSuper | RightSuper | Menu
  | Unknown | Count
  deriving DecidableEq

/-- Embedding of `to_scancode` (src/bin/mstsc-rs.rs lines 117-227).  The
source's catch-all arm aborts (it panics); that divergence is modelled as
`none`, every mapped key as `some` of its scancode. -/
def to_scancode (key : Key) : Option Nat :=
  match key with
  | .Escape => some 0x0001
  | .Key1 => some 0x0002
  | .Key2 => some 0x0003
  | .Key3 => some 0x0004
  | .Key4 => some 0x0005
  | .Key5 => some 0x0006
  | .Key6 => some 0x0007
  | .Key7 => some 0x0008
  | .Key8 => some 0x0009
  | .Key9 => some 0x000A
  | .Key0 => some 0x000B
  | .Minus => some 0x000C
  | .Equal => some 0x000D
  | .Backspace => some 0x000E
  | .Tab => some 0x000F
  | .Q => some 0x0010
  | .W => some 0x0011
  | .E => some 0x0012
  | .R => some 0x0013
  | .T => some 0x0014
  | .Y => some 0x0015
  | .U => some 0x0016
  | .I => some 0x0017
  | .O => some 0x0018
  | .P => some 0x0019
  | .LeftBracket => some 0x001A
  | .RightBracket => some 0x001B
  | .Enter => some 0x001C
  | .LeftCtrl => some 0x001D
  | .A => some 0x001E
  | .S => some 0x001F
  | .D => some 0x0020
  | .F => some 0x0021
  | .G => some 0x0022
  | .H => some 0x0023
  | .J => some 0x0024
  | .K => some 0x0025
  | .L => some 0x0026
  | .Semicolon => some 0x0027
  | .Apostrophe => some 0x0028
  | .Backquote => some 0x0029
  | .LeftShift => some 0x002A
  | .Backslash => some 0x002B
  | .Z => some 0x002C
  | .X => some 0x002D
  | .C => some 0x002E
  | .V => some 0x002F
  | .B => some 0x0030
  | .N => some 0x0031
  | .M => some 0x0032
  | .Comma => some 0x0033
  | .Period => some 0x0034
  | .Slash => some 0x0035
  | .RightShift => some 0x0036
  | .NumPadAsterisk => some 0x0037
  | .LeftAlt => some 0x0038
  | .Space => some 0x0039
  | .CapsLock => some 0x003A
  | .F1 => some 0x003B
  | .F2 => some 0x003C
  | .F3 => some 0x003D
  | .F4 => some 0x003E
  | .F5 => some 0x003F
  | .F6 => some 0x0040
  | .F7 => some 0x0041
  | .F8 => some 0x0042
  | .F9 => some 0x0043
  | .F10 => some 0x0044
  | .Pause => some 0x0045
  | .ScrollLock => some 0x0046
  | .NumPad7 => some 0x0047
  | .NumPad8 => some 0x0048
  | .NumPad9 => some 0x0049
  | .NumPadMinus => some 0x004A
  | .NumPad4 => some 0x004B
  | .NumPad5 => some 0x004C
  | .NumPad6 => some 0x004D
  | .NumPadPlus => some 0x004E
  | .NumPad1 => some 0x004F
  | .NumPad2 => some 0x0050
  | .NumPad3 => some 0x0051
  | .NumPad0 => some 0x0052
  | .NumPadDot => some 0x0053
  | .F11 => some 0x0057
  | .F12 => some 0x0058
  | .F13 => some 0x0064
  | .F14 => some 0x0065
  | .F15 => some 0x0066
  | .NumPadEnter => some 0xE01C
  | .RightCtrl => some 0xE01D
  | .NumPadSlash => some 0xE035
  | .RightAlt => some 0xE038
  | .NumLock => some 0xE045
  | .Home => some 0xE047
  | .Up => some 0xE048
  | .PageUp => some 0xE049
  | .Left => some 0xE04B
  | .Right => some 0xE04D
  | .End => some 0xE04F
  | .Down => some 0xE050
  | .PageDown => some 0xE051
  | .Insert => some 0xE052
  | .Delete => some 0xE053
  | .LeftSuper => some 0xE05B
  | .RightSuper => some 0xE05C
  | .Menu => some 0xE05D
  | .Unknown => none
  | .Count => none

end Scan

/-- Claim C9: `to_scancode` realizes the contract's mapping table bit-exactly
on its listed keys — `Escape ↦ 0x0001`, `RightAlt ↦ 0xE038`,
`Delete ↦ 0xE053` — and on every key outside the table it aborts (modelled
`none`) instead of returning a scancode. -/
theorem claim_C9_to_scancode :
    Scan.to_scancode Scan.Key.Escape = some 0x0001 ∧
    Scan.to_scancode Scan.Key.RightAlt = some 0xE038 ∧
    Scan.to_scancode Scan.Key.Delete = some 0xE053 ∧
    (∀ k : Scan.Key, Scan.to_scancode k = none ↔
      (k = Scan.Key.Unknown ∨ k = Scan.Key.Count)) := by
  refine ⟨rfl, rfl, rfl, fun k => ?_⟩
  cases k <;> simp [Scan.to_scancode]

namespace Gcc

/-- Embedding of `gcc::Version` (src/core/gcc.rs lines 19-23). -/
inductive Version where
  | RdpVersion
  | RdpVersion5plus
  | Unknown
  deriving DecidableEq

/-- The `repr(u32)` discriminants of `gcc::Version`: `RdpVersion` is
`0x0008_0001`, `RdpVersion5plus` is `0x0008_0004`, and `Unknown`, with no
explicit value, follows as `0x0008_0005`. -/
def Version.toU32 : Version → Nat
  | .RdpVersion => 0x00080001
  | .RdpVersion5plus => 0x00080004
  | .Unknown => 0x00080005

/-- Embedding of `impl From<u32> for Version` (src/core/gcc.rs lines 25-33):
`0x0008_0001` maps to `RdpVersion5plus` and `0x0008_0004` to `RdpVersion`,
the transpose of the discriminants. -/
def Version.fromU32 (e : Nat) : Version :=
  if e = 0x00080001 then Version.RdpVersion5plus
  else if e = 0x00080004 then Version.RdpVersion
  else Version.Unknown

end Gcc

namespace Per

/-- Modelled from the spec: `src/core/per.rs` is absent from the excerpt.
`write_choice(b)` — one byte (spec section 4.1). -/
def write_choice (choice : Nat) : List Nat := [choice % 256]

/-- Modelled from the spec: `write_length(n)` — one byte if `n < 128`, else
two bytes with the high bit of the first set (big-endian `n OR 0x8000`). -/
def write_length (length : Nat) : List Nat :=
  if length > 0x7f then [((length ||| 0x8000) >>> 8) % 256, length % 256]
  else [length % 256]

/-- Modelled from the spec: `write_selection(mask)` — one byte. -/
def write_selection (selection : Nat) : List Nat := [selection % 256]

/-- Modelled from the spec: `write_number_of_set(n)` — one byte. -/
def write_number_of_set (n : Nat) : List Nat := [n % 256]

/-- Modelled from the spec: `write_padding(n)` — `n` zero bytes. -/
def write_padding (n : Nat) : List Nat := List.replicate n 0

/-- Modelled from the spec: the digit-packing half of `write_numeric_string`
— "pack BCD-ish, pad to even nibble count": ASCII digits packed two to a
byte, high nibble first, an odd tail padded with a zero nibble. -/
def packNumeric : List Nat → List Nat
  | [] => []
  | [c] => [(((c - 0x30) % 10) * 16) % 256]
  | c1 :: c2 :: r => ((((c1 - 0x30) % 10) * 16) ||| ((c2 - 0x30) % 10)) % 256 :: packNumeric r

/-- Modelled from the spec: `write_numeric_string(s, min_len)` — a PER
length prefix for the length beyond `min_len`, then the packed digits. -/
def write_numeric_string (s : List Nat) (minimum : Nat) : List Nat :=
  write_length (s.length - minimum) ++ packNumeric s

/-- Modelled from the spec: `write_object_identifier(oid)` — the fixed
encoding of the six-component T.124 OID: a length byte `5`, the first two
components packed into one byte, then the remaining four. -/
def write_object_identifier (oid : List Nat) : List Nat :=
  match oid with
  | [a, b, c, d, e, f] => [5, (a * 16 + b) % 256, c % 256, d % 256, e % 256, f % 256]
  | _ => []

/-- Modelled from the spec: `write_octet_stream(bytes, min_len)` — a PER
length prefix for the length beyond `min_len` (the spec's section 8
property shows the prefix is present for the empty user data, so the
prefix is always written and encodes the clamped difference), then the
bytes. -/
def write_octet_stream (octet_stream : List Nat) (minimum : Nat) : List Nat :=
  write_length (octet_stream.length - minimum) ++ octet_stream

/-- `T124_02_98_OID` (src/core/gcc.rs line 11). -/
def t124OID : List Nat := [0, 0, 20, 124, 0, 1]

/-- `H221_CS_KEY` = `"Duca"` (src/core/gcc.rs line 12). -/
def h221CsKey : List Nat := [0x44, 0x75, 0x63, 0x61]

/-- `H221_SC_KEY` = `"McDn"` (src/core/gcc.rs line 13). -/
def h221ScKey : List Nat := [0x4D, 0x63, 0x44, 0x6E]

/-- Embedding of `write_conference_create_request` (src/core/gcc.rs lines
319-333), concatenating the PER pieces in source order. -/
def write_conference_create_request (user_data : List Nat) : List Nat :=
  write_choice 0 ++
  write_object_identifier t124OID ++
  write_length (user_data.length + 14) ++
  write_choice 0 ++
  write_selection 0x08 ++
  write_numeric_string [0x31] 1 ++
  write_padding 1 ++
  write_number_of_set 1 ++
  write_choice 0xc0 ++
  write_octet_stream h221CsKey 4 ++
  write_octet_stream user_data 0

end Per

/-- Claim C3: for empty user data, `write_conference_create_request` yields a
byte vector starting with the seven bytes `00 05 00 14 7C 00 01` (PER
prelude with the T.124 OID) and ending with the four ASCII bytes of
`"Duca"` followed by the PER length prefix of the empty user data. -/
theorem claim_C3_conference_create_request :
    (Per.write_conference_create_request []).take 7 =
      [0x00, 0x05, 0x00, 0x14, 0x7C, 0x00, 0x01] ∧
    (Per.write_conference_create_request []).drop
        ((Per.write_conference_create_request []).length - 5) =
      [0x44, 0x75, 0x63, 0x61] ++ Per.write_length ([] : List Nat).length := by
  decide

namespace License

/-- `license::MessageType` (src/core/license.rs lines 30-39). -/
inductive MessageType where
  | LicenseRequest
  | PlatformChallenge
  | NewLicense
  | UpgradeLicense
  | LicenseInfo
  | NewLicenseRequest
  | PlatformChallengeResponse
  | ErrorAlert
  deriving DecidableEq

/-- The `TryFromPrimitive` conversion of `license::MessageType`: `none` is
the conversion failure. -/
def messageTypeOfNat (n : Nat) : Option MessageType :=
  if n = 0x01 then some .LicenseRequest
  else if n = 0x02 then some .PlatformChallenge
  else if n = 0x03 then some .NewLicense
  else if n = 0x04 then some .UpgradeLicense
  else if n = 0x12 then some .LicenseInfo
  else if n = 0x13 then some .NewLicenseRequest
  else if n = 0x15 then some .PlatformChallengeResponse
  else if n = 0xFF then some .ErrorAlert
  else none

/-- `license::ErrorCode` (src/core/license.rs lines 45-55). -/
inductive ErrorCode where
  | ErrInvalidServerCertificate
  | ErrNoLicense
  | ErrInvalidScope
  | ErrNoLicenseServer
  | StatusValidClient
  | ErrInvalidClient
  | ErrInvalidProductid
  | ErrInvalidMessageLen
  | ErrInvalidMac
  deriving DecidableEq

/-- The `TryFromPrimitive` conversion of `license::ErrorCode`. -/
def errorCodeOfNat (n : Nat) : Option ErrorCode :=
  if n = 0x01 then some .ErrInvalidServerCertificate
  else if n = 0x02 then some .ErrNoLicense
  else if n = 0x04 then some .ErrInvalidScope
  else if n = 0x06 then some .ErrNoLicenseServer
  else if n = 0x07 then some .StatusValidClient
  else if n = 0x08 then some .ErrInvalidClient
  else if n = 0x0B then some .ErrInvalidProductid
  else if n = 0x0C then some .ErrInvalidMessageLen
  else if n = 0x03 then some .ErrInvalidMac
  else none

/-- `license::StateTransition` (src/core/license.rs lines 62-67). -/
inductive StateTransition where
  | TotalAbort
  | NoTransition
  | ResetPhaseToStart
  | ResendLastMessage
  deriving DecidableEq

/-- The `TryFromPrimitive` conversion of `license::StateTransition`. -/
def stateTransitionOfNat (n : Nat) : Option StateTransition :=
  if n = 0x01 then some .TotalAbort
  else if n = 0x02 then some .NoTransition
  else if n = 0x03 then some .ResetPhaseToStart
  else if n = 0x04 then some .ResendLastMessage
  else none

/-- One byte from a stream.  An exhausted stream is the wrapped I/O error of
the absent `model/error.rs`; its kind is modelled as `Unknown` (spec
section 7: `Unknown` wraps platform errors). -/
def readU8 : List Nat → Except RdpErrorKind (Nat × List Nat)
  | [] => .error .Unknown
  | b :: r => .ok (b, r)

/-- `read_u16::<LittleEndian>`. -/
def readU16LE : List Nat → Except RdpErrorKind (Nat × List Nat)
  | b0 :: b1 :: r => .ok (b0 + 256 * b1, r)
  | _ => .error .Unknown

/-- `read_u32::<LittleEndian>`. -/
def readU32LE : List Nat → Except RdpErrorKind (Nat × List Nat)
  | b0 :: b1 :: b2 :: b3 :: r =>
      .ok (b0 + 256 * b1 + 65536 * b2 + 16777216 * b3, r)
  | _ => .error .Unknown

/-- A sized byte vector field.  Modelled from the spec: the structural
message kernel (`model/data.rs` is absent) reads exactly the declared
number of bytes and fails with `InvalidSize` when the stream is shorter
(spec sections 3 and 7). -/
def readBytes (n : Nat) (s : List Nat) : Except RdpErrorKind (List Nat × List Nat) :=
  if s.length < n then .error .InvalidSize else .ok (s.take n, s.drop n)

/-- The decoded `preamble()` component (src/core/license.rs lines 72-79). -/
structure LicensePreamble where
  bMsgtype : Nat
  wMsgSize : Nat
  message : List Nat

/-- Reading `preamble()`: `bMsgtype` u8, a checked `flag` byte that must be
`Preamble::Version30 = 0x03` (`InvalidConst` otherwise, per the spec's
check-field rule), `wMsgSize` u16le, then `wMsgSize - 4` bytes of message.
A `wMsgSize` below 4 underflows the source's usize subtraction and can
never read successfully; it is modelled as `InvalidSize`. -/
def readPreamble (s : List Nat) : Except RdpErrorKind LicensePreamble :=
  match readU8 s with
  | .error e => .error e
  | .ok (bMsgtype, s) =>
    match readU8 s with
    | .error e => .error e
    | .ok (flag, s) =>
      if flag ≠ 0x03 then .error .InvalidConst
      else
        match readU16LE s with
        | .error e => .error e
        | .ok (wMsgSize, s) =>
          if wMsgSize < 4 then .error .InvalidSize
          else
            match readBytes (wMsgSize - 4) s with
            | .error e => .error e
            | .ok (message, _) => .ok ⟨bMsgtype, wMsgSize, message⟩

/-- The decoded `licensing_error_message()` component with its nested
`license_binary_blob()` (src/core/license.rs lines 82-98). -/
structure LicensingErrorMessage where
  dwErrorCode : Nat
  dwStateTransition : Nat
  wBlobType : Nat
  blobData : List Nat

/-- Reading `licensing_error_message()`: two u32le fields, then the blob
(u16le type, u16le length, that many bytes). -/
def readLicensingErrorMessage (s : List Nat) : Except RdpErrorKind LicensingErrorMessage :=
  match readU32LE s with
  | .error e => .error e
  | .ok (dwErrorCode, s) =>
    match readU32LE s with
    | .error e => .error e
    | .ok (dwStateTransition, s) =>
      match readU16LE s with
      | .error e => .error e
      | .ok (wBlobType, s) =>
        match readU16LE s with
        | .error e => .error e
        | .ok (wBlobLen, s) =>
          match readBytes wBlobLen s with
          | .error e => .error e
          | .ok (blobData, _) => .ok ⟨dwErrorCode, dwStateTransition, wBlobType, blobData⟩

/-- `license::LicenseMessage` (src/core/license.rs lines 10-13). -/
inductive LicenseMessage where
  | NewLicense
  | ErrorAlert (blob : LicensingErrorMessage)

/-- Embedding of `parse_payload` (src/core/license.rs lines 102-113): only
`NewLicense` and `ErrorAlert` are accepted; other recognized message types
are `NotImplemented`; an unrecognized `bMsgtype` is the `TryFromPrimitive`
conversion failure. -/
def parse_payload (payload : LicensePreamble) : Except RdpErrorKind LicenseMessage :=
  match messageTypeOfNat payload.bMsgtype with
  | none => .error .Unknown
  | some .NewLicense => .ok .NewLicense
  | some .ErrorAlert =>
      match readLicensingErrorMessage payload.message with
      | .error e => .error e
      | .ok m => .ok (.ErrorAlert m)
  | some _ => .error .NotImplemented

/-- Embedding of `client_connect` (src/core/license.rs lines 123-143).  The
source's `&&` short-circuits: when `dwErrorCode` converts to something
other than `StatusValidClient`, `dwStateTransition` is never converted. -/
def client_connect (s : List Nat) : Except RdpErrorKind Unit :=
  match readPreamble s with
  | .error e => .error e
  | .ok license_message =>
    match parse_payload license_message with
    | .error e => .error e
    | .ok .NewLicense => .ok ()
    | .ok (.ErrorAlert blob) =>
      match errorCodeOfNat blob.dwErrorCode with
      | none => .error .Unknown
      | some ec =>
        if ec = .StatusValidClient then
          match stateTransitionOfNat blob.dwStateTransition with
          | none => .error .Unknown
          | some st =>
            if st = .NoTransition then .ok () else .error .InvalidRespond
        else .error .InvalidRespond

/-- A little-endian u16 as bytes. -/
def u16le (n : Nat) : List Nat := [n % 256, n / 256 % 256]

/-- A little-endian u32 as bytes. -/
def u32le (n : Nat) : List Nat :=
  [n % 256, n / 256 % 256, n / 65536 % 256, n / 16777216 % 256]

/-- A license message with preamble: `bMsgType`, flag `0x03`, `wMsgSize`
covering the 4-byte header, then the body. -/
def mkLicenseBytes (mt : Nat) (body : List Nat) : List Nat :=
  [mt % 256, 0x03] ++ u16le (body.length + 4) ++ body

/-- An `ErrorAlert` license message carrying `dwErrorCode`,
`dwStateTransition` and an empty blob (the spec's scenario 3 shape). -/
def mkErrorAlertBytes (ec st : Nat) : List Nat :=
  mkLicenseBytes 0xFF (u32le ec ++ u32le st ++ [0, 0, 0, 0])

theorem readU32LE_u32le (n : Nat) (r : List Nat) (h : n < 4294967296) :
    readU32LE (u32le n ++ r) = .ok (n, r) := by
  have hn : n % 256 + 256 * (n / 256 % 256) + 65536 * (n / 65536 % 256) +
      16777216 * (n / 16777216 % 256) = n := by omega
  calc readU32LE (u32le n ++ r)
      = .ok (n % 256 + 256 * (n / 256 % 256) + 65536 * (n / 65536 % 256) +
          16777216 * (n / 16777216 % 256), r) := rfl
    _ = .ok (n, r) := by rw [hn]

/-- The decision `client_connect` takes on a decoded `ErrorAlert`, as a
function of the raw `dwErrorCode` and `dwStateTransition` values (the tail
of src/core/license.rs lines 127-142). -/
def alertDecision (ec st : Nat) : Except RdpErrorKind Unit :=
  match errorCodeOfNat ec with
  | none => .error .Unknown
  | some c =>
    if c = .StatusValidClient then
      match stateTransitionOfNat st with
      | none => .error .Unknown
      | some t =>
        if t = .NoTransition then .ok () else .error .InvalidRespond
    else .error .InvalidRespond

theorem readPreamble_mkErrorAlert (ec st : Nat) :
    readPreamble (mkErrorAlertBytes ec st) =
      .ok ⟨0xFF, 16, u32le ec ++ u32le st ++ [0, 0, 0, 0]⟩ := by
  simp [mkErrorAlertBytes, mkLicenseBytes, u16le, u32le, readPreamble, readU8,
    readU16LE, readBytes]

theorem readLicensingErrorMessage_bytes (ec st : Nat)
    (hec : ec < 4294967296) (hst : st < 4294967296) :
    readLicensingErrorMessage (u32le ec ++ (u32le st ++ [0, 0, 0, 0])) =
      .ok ⟨ec, st, 0, []⟩ := by
  simp [readLicensingErrorMessage, List.append_assoc,
    readU32LE_u32le _ _ hec, readU32LE_u32le _ _ hst, readU16LE, readBytes]

theorem client_connect_mkErrorAlert (ec st : Nat)
    (hec : ec < 4294967296) (hst : st < 4294967296) :
    client_connect (mkErrorAlertBytes ec st) = alertDecision ec st := by
  simp [client_connect, readPreamble_mkErrorAlert ec st, parse_payload,
    messageTypeOfNat, List.append_assoc,
    readLicensingErrorMessage_bytes ec st hec hst, alertDecision]

end License

/-- Claim C1, counterexample: the claim says every combination other than
the two accepted ones fails with `InvalidRespond`, but a license message
with `bMsgType = 0x12` (`LicenseInfo`) — any `dwErrorCode` and
`dwStateTransition` values are then irrelevant — fails with
`NotImplemented`. -/
theorem claim_C1_counterexample :
    License.client_connect (License.mkLicenseBytes 0x12 []) =
      .error .NotImplemented ∧
    RdpErrorKind.NotImplemented ≠ RdpErrorKind.InvalidRespond :=
  ⟨rfl, by decide⟩

set_option maxHeartbeats 1000000 in
/-- Claim C1, amended: `client_connect` returns `Ok` exactly for
`bMsgType = 0x03` (NewLicense) and for `bMsgType = 0xFF` (ErrorAlert) with
`dwErrorCode = 0x07` and `dwStateTransition = 0x02`; an ErrorAlert whose
recognized `dwErrorCode`/`dwStateTransition` differ from that pair fails
with `InvalidRespond`; but a recognized unsupported message type fails with
`NotImplemented`, not `InvalidRespond` (and unrecognized enum values fail
with the conversion error). -/
theorem claim_C1_amended :
    (License.client_connect (License.mkLicenseBytes 0x03 []) = .ok ()) ∧
    (∀ ec st, ec < 4294967296 → st < 4294967296 →
      (License.client_connect (License.mkErrorAlertBytes ec st) = .ok () ↔
        (ec = 7 ∧ st = 2))) ∧
    (∀ ec st c t, License.errorCodeOfNat ec = some c →
      License.stateTransitionOfNat st = some t → ¬(ec = 7 ∧ st = 2) →
      License.client_connect (License.mkErrorAlertBytes ec st) =
        .error .InvalidRespond) ∧
    (∀ mt m, License.messageTypeOfNat mt = some m → mt ≠ 0x03 → mt ≠ 0xFF →
      License.client_connect (License.mkLicenseBytes mt []) =
        .error .NotImplemented) := by
  refine ⟨rfl, ?_, ?_, ?_⟩
  · intro ec st hec hst
    rw [License.client_connect_mkErrorAlert ec st hec hst]
    unfold License.alertDecision License.errorCodeOfNat License.stateTransitionOfNat
    split_ifs <;> simp_all
  · intro ec st c t hc ht hne
    unfold License.errorCodeOfNat at hc
    unfold License.stateTransitionOfNat at ht
    split_ifs at hc ht <;> subst_vars <;>
      first
        | (rw [License.client_connect_mkErrorAlert _ _ (by norm_num) (by norm_num)]; rfl)
        | simp_all
  · intro mt m hm h3 hFF
    unfold License.messageTypeOfNat at hm
    split_ifs at hm <;> subst_vars <;> rfl

/-- Witness for claim C1's amended theorem at the concrete accepted alert
`(dwErrorCode, dwStateTransition) = (7, 2)`. -/
theorem claim_C1_amended_witness :
    License.client_connect (License.mkErrorAlertBytes 7 2) = .ok () :=
  (claim_C1_amended.2.1 7 2 (by norm_num) (by norm_num)).mpr ⟨rfl, rfl⟩

namespace Plane

/-- One byte from the cursor; `pos` is the cursor position.  Exhaustion is
the wrapped I/O error (kind modelled `Unknown`). -/
def readU8 (input : List Nat) (pos : Nat) : Except RdpErrorKind (Nat × Nat) :=
  match input.get? pos with
  | some b => .ok (b, pos + 1)
  | none => .error .Unknown

theorem readU8_ok (input : List Nat) (pos b p' : Nat)
    (h : readU8 input pos = .ok (b, p')) :
    input.get? pos = some b ∧ p' = pos + 1 ∧ pos < input.length := by
  unfold readU8 at h
  cases hg : input.get? pos with
  | none => rw [hg] at h; exact absurd h (by simp)
  | some c =>
      rw [hg] at h
      simp only [Except.ok.injEq, Prod.mk.injEq] at h
      exact ⟨congrArg some h.1, h.2.symm, (List.get?_eq_some.mp hg).1⟩

/-- The `as i8` cast: two's-complement wrap into `[-128, 127]`. -/
def toI8 (n : Int) : Int := (n + 128) % 256 - 128

/-- The `as u8` cast of a signed intermediate. -/
def toU8 (n : Int) : Nat := (n % 256).toNat

/-- State of one line of `process_plane` (src/codec/rle.rs lines 13-72):
cursor position, write cursor `out` (relative to the plane's slice start),
`indexw`, and the output buffer. -/
structure LSt where
  pos : Nat
  out : Nat
  indexw : Nat
  output : List Nat

/-- The `collen` loop of the first (bottom) line (src/codec/rle.rs lines
28-34): read a colour byte, emit it, repeat.  Returns the last colour. -/
def firstColl (input : List Nat) (off : Nat) :
    Nat → Nat → LSt → Except RdpErrorKind (Nat × LSt)
  | 0, color, st => .ok (color, st)
  | n + 1, _, st =>
    match readU8 input st.pos with
    | .error e => .error e
    | .ok (c, pos1) =>
        firstColl input off n c
          ⟨pos1, st.out + 4, st.indexw + 1, st.output.set (off + st.out) c⟩

/-- The `replen` loop of the first line (src/codec/rle.rs lines 35-40):
emit the colour `replen` times. -/
def firstRep (off : Nat) : Nat → Nat → LSt → LSt
  | 0, _, st => st
  | n + 1, color, st =>
      firstRep off n color
        ⟨st.pos, st.out + 4, st.indexw + 1, st.output.set (off + st.out) color⟩

theorem firstColl_pos (input : List Nat) (off : Nat) (n color : Nat) (st : LSt)
    (c' : Nat) (st' : LSt) (h : firstColl input off n color st = .ok (c', st')) :
    st.pos ≤ st'.pos := by
  induction n generalizing color st with
  | zero =>
      unfold firstColl at h
      simp only [Except.ok.injEq, Prod.mk.injEq] at h
      rw [h.2]
  | succ m ih =>
      unfold firstColl at h
      cases hr : readU8 input st.pos with
      | error e => rw [hr] at h; exact absurd h (by simp)
      | ok v =>
          obtain ⟨b, pos1⟩ := v
          rw [hr] at h
          have := ih b ⟨pos1, st.out + 4, st.indexw + 1, st.output.set (off + st.out) b⟩ h
          have hp := (readU8_ok input st.pos b pos1 hr).2.1
          simp at this
          omega

theorem firstRep_pos (off n color : Nat) (st : LSt) :
    (firstRep off n color st).pos = st.pos := by
  induction n generalizing st with
  | zero => rfl
  | succ m ih => unfold firstRep; rw [ih]

/-- One first-mode line (src/codec/rle.rs lines 17-41): while
`indexw < width`, read an opcode byte, split it into `(replen, collen)`
nibbles, reverse single-run codes in `[16, 47]`, then run the two loops. -/
def firstLineLoop (input : List Nat) (width off : Nat) (color : Nat) (st : LSt) :
    Except RdpErrorKind LSt :=
  if st.indexw < width then
    match hr : readU8 input st.pos with
    | .error e => .error e
    | .ok (code, pos1) =>
      let replen0 := code &&& 0xf
      let collen0 := (code >>> 4) &&& 0xf
      let revcode := (replen0 <<< 4) ||| collen0
      let rc := if 16 ≤ revcode ∧ revcode ≤ 47 then (revcode, 0) else (replen0, collen0)
      match hc : firstColl input off rc.2 color { st with pos := pos1 } with
      | .error e => .error e
      | .ok (color1, st1) =>
          firstLineLoop input width off color1 (firstRep off rc.1 color1 st1)
  else .ok st
termination_by input.length - st.pos
decreasing_by
  have h1 := readU8_ok input st.pos code pos1 hr
  have h2 := firstColl_pos input off rc.2 color _ color1 st1 hc
  simp only at h2
  rw [firstRep_pos]
  omega

/-- The source's signed-delta decoding of one byte (src/codec/rle.rs line
55): low bit set means `-((x >> 1) + 1)`, clear means `x >> 1`, with the
`as i8` casts of the source. -/
def srcDelta (x : Nat) : Int :=
  if x &&& 1 ≠ 0 then toI8 (-(((x >>> 1 : Nat) : Int) + 1)) else toI8 ((x >>> 1 : Nat) : Int)

/-- The spec's signed-delta decoding (spec section 4.3): low bit zero gives
`delta = byte >> 1`, low bit one gives `delta = -((byte >> 1) + 1)`, with
no intermediate casts. -/
def specDelta (x : Nat) : Int :=
  if x % 2 = 1 then -(((x / 2 : Nat) : Int) + 1) else ((x / 2 : Nat) : Int)

/-- The `collen` loop of a subsequent (delta) line (src/codec/rle.rs lines
53-61): read a byte, decode the signed delta, add it to the previous
line's byte at the same column (mod 256), emit. -/
def deltaColl (input : List Nat) (off lastLine : Nat) :
    Nat → Int → LSt → Except RdpErrorKind (Int × LSt)
  | 0, color, st => .ok (color, st)
  | n + 1, _, st =>
    match readU8 input st.pos with
    | .error e => .error e
    | .ok (x, pos1) =>
        let color := srcDelta x
        let v := toU8 ((st.output.getD (off + lastLine + st.indexw * 4) 0 : Int) + color)
        deltaColl input off lastLine n color
          ⟨pos1, st.out + 4, st.indexw + 1, st.output.set (off + st.out) v⟩

/-- The `replen` loop of a delta line (src/codec/rle.rs lines 62-68): add
the current delta to the previous line's byte at each column, emit. -/
def deltaRep (off lastLine : Nat) : Nat → Int → LSt → LSt
  | 0, _, st => st
  | n + 1, color, st =>
      let v := toU8 ((st.output.getD (off + lastLine + st.indexw * 4) 0 : Int) + color)
      deltaRep off lastLine n color
        ⟨st.pos, st.out + 4, st.indexw + 1, st.output.set (off + st.out) v⟩

theorem deltaColl_pos (input : List Nat) (off lastLine : Nat) (n : Nat) (color : Int)
    (st : LSt) (c' : Int) (st' : LSt)
    (h : deltaColl input off lastLine n color st = .ok (c', st')) :
    st.pos ≤ st'.pos := by
  induction n generalizing color st with
  | zero =>
      unfold deltaColl at h
      simp only [Except.ok.injEq, Prod.mk.injEq] at h
      rw [h.2]
  | succ m ih =>
      unfold deltaColl at h
      cases hr : readU8 input st.pos with
      | error e => rw [hr] at h; exact absurd h (by simp)
      | ok v =>
          obtain ⟨b, pos1⟩ := v
          rw [hr] at h
          have := ih _ _ h
          have hp := (readU8_ok input st.pos b pos1 hr).2.1
          simp at this
          omega

theorem deltaRep_pos (off lastLine n : Nat) (color : Int) (st : LSt) :
    (deltaRep off lastLine n color st).pos = st.pos := by
  induction n generalizing st with
  | zero => rfl
  | succ m ih => unfold deltaRep; rw [ih]

/-- One delta line (src/codec/rle.rs lines 42-69), same opcode structure as
the first line but with signed-delta emission. -/
def deltaLineLoop (input : List Nat) (width off lastLine : Nat) (color : Int)
    (st : LSt) : Except RdpErrorKind LSt :=
  if st.indexw < width then
    match hr : readU8 input st.pos with
    | .error e => .error e
    | .ok (code, pos1) =>
      let replen0 := code &&& 0xf
      let collen0 := (code >>> 4) &&& 0xf
      let revcode := (replen0 <<< 4) ||| collen0
      let rc := if 16 ≤ revcode ∧ revcode ≤ 47 then (revcode, 0) else (replen0, collen0)
      match hc : deltaColl input off lastLine rc.2 color { st with pos := pos1 } with
      | .error e => .error e
      | .ok (color1, st1) =>
          deltaLineLoop input width off lastLine color1
            (deltaRep off lastLine rc.1 color1 st1)
  else .ok st
termination_by input.length - st.pos
decreasing_by
  have h1 := readU8_ok input st.pos code pos1 hr
  have h2 := deltaColl_pos input off lastLine rc.2 color _ color1 st1 hc
  simp only at h2
  rw [deltaRep_pos]
  omega

/-- The line loop of `process_plane` (src/codec/rle.rs lines 13-72):
`r` lines remain; the line being written starts at `(r - 1) * width * 4`
within the slice; `lastLine = 0` selects plain run-length mode (the
source's flag doubling as the previous line's offset). -/
def planeLines (input : List Nat) (width off : Nat) :
    Nat → Nat → Nat → List Nat → Except RdpErrorKind (Nat × List Nat)
  | 0, _, pos, output => .ok (pos, output)
  | r + 1, lastLine, pos, output =>
    let thisLine := r * width * 4
    if lastLine = 0 then
      match firstLineLoop input width off 0 ⟨pos, thisLine, 0, output⟩ with
      | .error e => .error e
      | .ok st' => planeLines input width off r thisLine st'.pos st'.output
    else
      match deltaLineLoop input width off lastLine 0 ⟨pos, thisLine, 0, output⟩ with
      | .error e => .error e
      | .ok st' => planeLines input width off r thisLine st'.pos st'.output

/-- Embedding of `process_plane` (src/codec/rle.rs lines 10-74).  `off` is
the start of the plane's slice within the shared output buffer (the
caller's `&mut output[k..]`); `pos` is the cursor position. -/
def process_plane (input : List Nat) (width height off pos : Nat)
    (output : List Nat) : Except RdpErrorKind (Nat × List Nat) :=
  planeLines input width off height 0 pos output

/-- Embedding of `rle_32_decompress` (src/codec/rle.rs lines 77-89): a
`0x10` header byte, then four planes decoded consecutively into byte
offsets 3, 2, 1, 0 of each 4-byte pixel. -/
def rle_32_decompress (input : List Nat) (width height : Nat)
    (output : List Nat) : Except RdpErrorKind (List Nat) :=
  match readU8 input 0 with
  | .error e => .error e
  | .ok (b, pos1) =>
    if b ≠ 0x10 then .error .RleDecode
    else
      match process_plane input width height 3 pos1 output with
      | .error e => .error e
      | .ok (pos2, out2) =>
        match process_plane input width height 2 pos2 out2 with
        | .error e => .error e
        | .ok (pos3, out3) =>
          match process_plane input width height 1 pos3 out3 with
          | .error e => .error e
          | .ok (pos4, out4) =>
            match process_plane input width height 0 pos4 out4 with
            | .error e => .error e
            | .ok (_, out5) => .ok out5

/-- The delta `collen` loop with the spec's delta formula (spec section
4.3), the only point where the spec's wording and the source's cast-laden
expression could differ. -/
def deltaCollSpec (input : List Nat) (off lastLine : Nat) :
    Nat → Int → LSt → Except RdpErrorKind (Int × LSt)
  | 0, color, st => .ok (color, st)
  | n + 1, _, st =>
    match readU8 input st.pos with
    | .error e => .error e
    | .ok (x, pos1) =>
        let color := specDelta x
        let v := toU8 ((st.output.getD (off + lastLine + st.indexw * 4) 0 : Int) + color)
        deltaCollSpec input off lastLine n color
          ⟨pos1, st.out + 4, st.indexw + 1, st.output.set (off + st.out) v⟩

theorem deltaCollSpec_pos (input : List Nat) (off lastLine : Nat) (n : Nat) (color : Int)
    (st : LSt) (c' : Int) (st' : LSt)
    (h : deltaCollSpec input off lastLine n color st = .ok (c', st')) :
    st.pos ≤ st'.pos := by
  induction n generalizing color st with
  | zero =>
      unfold deltaCollSpec at h
      simp only [Except.ok.injEq, Prod.mk.injEq] at h
      rw [h.2]
  | succ m ih =>
      unfold deltaCollSpec at h
      cases hr : readU8 input st.pos with
      | error e => rw [hr] at h; exact absurd h (by simp)
      | ok v =>
          obtain ⟨b, pos1⟩ := v
          rw [hr] at h
          have := ih _ _ h
          have hp := (readU8_ok input st.pos b pos1 hr).2.1
          simp at this
          omega

/-- A delta line with the spec's delta formula; the run (`replen`) loop is
the shared `deltaRep`. -/
def deltaLineLoopSpec (input : List Nat) (width off lastLine : Nat) (color : Int)
    (st : LSt) : Except RdpErrorKind LSt :=
  if st.indexw < width then
    match hr : readU8 input st.pos with
    | .error e => .error e
    | .ok (code, pos1) =>
      let replen0 := code &&& 0xf
      let collen0 := (code >>> 4) &&& 0xf
      let revcode := (replen0 <<< 4) ||| collen0
      let rc := if 16 ≤ revcode ∧ revcode ≤ 47 then (revcode, 0) else (replen0, collen0)
      match hc : deltaCollSpec input off lastLine rc.2 color { st with pos := pos1 } with
      | .error e => .error e
      | .ok (color1, st1) =>
          deltaLineLoopSpec input width off lastLine color1
            (deltaRep off lastLine rc.1 color1 st1)
  else .ok st
termination_by input.length - st.pos
decreasing_by
  have h1 := readU8_ok input st.pos code pos1 hr
  have h2 := deltaCollSpec_pos input off lastLine rc.2 color _ color1 st1 hc
  simp only at h2
  rw [deltaRep_pos]
  omega

/-- `process_plane` with the spec's delta-line formula. -/
def planeLinesSpec (input : List Nat) (width off : Nat) :
    Nat → Nat → Nat → List Nat → Except RdpErrorKind (Nat × List Nat)
  | 0, _, pos, output => .ok (pos, output)
  | r + 1, lastLine, pos, output =>
    let thisLine := r * width * 4
    if lastLine = 0 then
      match firstLineLoop input width off 0 ⟨pos, thisLine, 0, output⟩ with
      | .error e => .error e
      | .ok st' => planeLinesSpec input width off r thisLine st'.pos st'.output
    else
      match deltaLineLoopSpec input width off lastLine 0 ⟨pos, thisLine, 0, output⟩ with
      | .error e => .error e
      | .ok st' => planeLinesSpec input width off r thisLine st'.pos st'.output

/-- `process_plane` as the spec words it. -/
def process_plane_spec (input : List Nat) (width height off pos : Nat)
    (output : List Nat) : Except RdpErrorKind (Nat × List Nat) :=
  planeLinesSpec input width off height 0 pos output

theorem srcDelta_eq_specDelta (x : Nat) (h : x < 256) : srcDelta x = specDelta x := by
  unfold srcDelta specDelta toI8
  rw [Nat.and_one_is_mod, Nat.shiftRight_one]
  have h2 : x / 2 ≤ 127 := by omega
  split_ifs <;> push_cast <;> omega

theorem deltaColl_eq_spec (input : List Nat) (off lastLine : Nat)
    (hin : ∀ b ∈ input, b < 256) :
    ∀ (n : Nat) (color : Int) (st : LSt),
      deltaColl input off lastLine n color st =
        deltaCollSpec input off lastLine n color st := by
  intro n
  induction n with
  | zero => intro color st; rfl
  | succ m ih =>
      intro color st
      unfold deltaColl deltaCollSpec
      cases hr : readU8 input st.pos with
      | error e => rfl
      | ok v =>
          obtain ⟨x, pos1⟩ := v
          have hx : x < 256 :=
            hin x (List.get?_mem (readU8_ok input st.pos x pos1 hr).1)
          simp only [srcDelta_eq_specDelta x hx]
          exact ih _ _

theorem deltaLineLoop_eq_spec (input : List Nat) (width off lastLine : Nat)
    (hin : ∀ b ∈ input, b < 256) :
    ∀ (st : LSt) (color : Int),
      deltaLineLoop input width off lastLine color st =
        deltaLineLoopSpec input width off lastLine color st := by
  have main : ∀ (k : Nat) (st : LSt) (color : Int), input.length - st.pos ≤ k →
      deltaLineLoop input width off lastLine color st =
        deltaLineLoopSpec input width off lastLine color st := by
    intro k
    induction k with
    | zero =>
        intro st color hk
        unfold deltaLineLoop deltaLineLoopSpec
        by_cases hw : st.indexw < width
        · rw [if_pos hw, if_pos hw]
          cases hr : readU8 input st.pos with
          | error e => simp [hr]
          | ok v =>
              have := (readU8_ok input st.pos v.1 v.2 (by rw [hr])).2.2
              omega
        · rw [if_neg hw, if_neg hw]
    | succ m ih =>
        intro st color hk
        unfold deltaLineLoop deltaLineLoopSpec
        by_cases hw : st.indexw < width
        · rw [if_pos hw, if_pos hw]
          cases hr : readU8 input st.pos with
          | error e => simp [hr]
          | ok v =>
              obtain ⟨code, pos1⟩ := v
              obtain ⟨hget, hpos1, hlt⟩ := readU8_ok input st.pos code pos1 hr
              simp only [hr]
              rw [deltaColl_eq_spec input off lastLine hin]
              split
              · next e heq => rfl
              · next color1 st1 heq =>
                  have hp1 := deltaCollSpec_pos input off lastLine _ color _ color1 st1 heq
                  simp only at hp1
                  apply ih
                  rw [deltaRep_pos]
                  omega
        · rw [if_neg hw, if_neg hw]
  intro st color
  exact main (input.length - st.pos) st color le_rfl

theorem planeLines_eq_spec (input : List Nat) (width off : Nat)
    (hin : ∀ b ∈ input, b < 256) :
    ∀ (r lastLine pos : Nat) (output : List Nat),
      planeLines input width off r lastLine pos output =
        planeLinesSpec input width off r lastLine pos output := by
  intro r
  induction r with
  | zero => intro lastLine pos output; rfl
  | succ m ih =>
      intro lastLine pos output
      unfold planeLines planeLinesSpec
      by_cases h0 : lastLine = 0
      · rw [if_pos h0, if_pos h0]
        cases hf : firstLineLoop input width off 0 ⟨pos, m * width * 4, 0, output⟩ with
        | error e => rfl
        | ok st' => exact ih _ _ _
      · rw [if_neg h0, if_neg h0]
        rw [deltaLineLoop_eq_spec input width off lastLine hin]
        cases hd : deltaLineLoopSpec input width off lastLine 0
            ⟨pos, m * width * 4, 0, output⟩ with
        | error e => rfl
        | ok st' => exact ih _ _ _

theorem process_plane_eq_spec (input : List Nat) (width height off pos : Nat)
    (output : List Nat) (hin : ∀ b ∈ input, b < 256) :
    process_plane input width height off pos output =
      process_plane_spec input width height off pos output :=
  planeLines_eq_spec input width off hin height 0 pos output

/-- The frame relation of a plane slice: the output keeps its length and is
unchanged at every index whose residue mod 4 differs from `off`'s. -/
def Frame (off : Nat) (a b : List Nat) : Prop :=
  a.length = b.length ∧ ∀ i, i % 4 ≠ off % 4 → a.get? i = b.get? i

theorem Frame.refl4 (off : Nat) (a : List Nat) : Frame off a a := ⟨rfl, fun _ _ => rfl⟩

theorem Frame.trans4 {off : Nat} {a b c : List Nat} (h1 : Frame off a b)
    (h2 : Frame off b c) : Frame off a c :=
  ⟨h1.1.trans h2.1, fun i hi => (h1.2 i hi).trans (h2.2 i hi)⟩

theorem Frame.set4 {off : Nat} {a : List Nat} {out v : Nat} (hout : out % 4 = 0) :
    Frame off (a.set (off + out) v) a := by
  refine ⟨a.length_set .., fun i hi => ?_⟩
  exact List.get?_set_ne v a (by omega)

theorem firstColl_frame (input : List Nat) (off : Nat) :
    ∀ (n color : Nat) (st : LSt) (c' : Nat) (st' : LSt),
      firstColl input off n color st = .ok (c', st') → st.out % 4 = 0 →
      st'.out % 4 = 0 ∧ Frame off st'.output st.output := by
  intro n
  induction n with
  | zero =>
      intro color st c' st' h hout
      unfold firstColl at h
      simp only [Except.ok.injEq, Prod.mk.injEq] at h
      rw [← h.2]
      exact ⟨hout, Frame.refl4 off st.output⟩
  | succ m ih =>
      intro color st c' st' h hout
      unfold firstColl at h
      cases hr : readU8 input st.pos with
      | error e => rw [hr] at h; exact absurd h (by simp)
      | ok v =>
          obtain ⟨c, pos1⟩ := v
          rw [hr] at h
          have := ih c _ c' st' h (by simp; omega)
          exact ⟨this.1, this.2.trans4 (Frame.set4 hout)⟩

theorem firstRep_frame (off : Nat) :
    ∀ (n color : Nat) (st : LSt), st.out % 4 = 0 →
      (firstRep off n color st).out % 4 = 0 ∧
      Frame off (firstRep off n color st).output st.output := by
  intro n
  induction n with
  | zero => intro color st hout; exact ⟨hout, Frame.refl4 off st.output⟩
  | succ m ih =>
      intro color st hout
      unfold firstRep
      have := ih color ⟨st.pos, st.out + 4, st.indexw + 1,
        st.output.set (off + st.out) color⟩ (by simp; omega)
      exact ⟨this.1, this.2.trans4 (Frame.set4 hout)⟩

theorem deltaColl_frame (input : List Nat) (off lastLine : Nat) :
    ∀ (n : Nat) (color : Int) (st : LSt) (c' : Int) (st' : LSt),
      deltaColl input off lastLine n color st = .ok (c', st') → st.out % 4 = 0 →
      st'.out % 4 = 0 ∧ Frame off st'.output st.output := by
  intro n
  induction n with
  | zero =>
      intro color st c' st' h hout
      unfold deltaColl at h
      simp only [Except.ok.injEq, Prod.mk.injEq] at h
      rw [← h.2]
      exact ⟨hout, Frame.refl4 off st.output⟩
  | succ m ih =>
      intro color st c' st' h hout
      unfold deltaColl at h
      cases hr : readU8 input st.pos with
      | error e => rw [hr] at h; exact absurd h (by simp)
      | ok v =>
          obtain ⟨x, pos1⟩ := v
          rw [hr] at h
          have := ih _ _ c' st' h (by simp; omega)
          exact ⟨this.1, this.2.trans4 (Frame.set4 hout)⟩

theorem deltaRep_frame (off lastLine : Nat) :
    ∀ (n : Nat) (color : Int) (st : LSt), st.out % 4 = 0 →
      (deltaRep off lastLine n color st).out % 4 = 0 ∧
      Frame off (deltaRep off lastLine n color st).output st.output := by
  intro n
  induction n with
  | zero => intro color st hout; exact ⟨hout, Frame.refl4 off st.output⟩
  | succ m ih =>
      intro color st hout
      unfold deltaRep
      have := ih color ⟨st.pos, st.out + 4, st.indexw + 1,
        st.output.set (off + st.out)
          (toU8 ((st.output.getD (off + lastLine + st.indexw * 4) 0 : Int) + color))⟩
        (by simp; omega)
      exact ⟨this.1, this.2.trans4 (Frame.set4 hout)⟩

theorem firstLineLoop_frame (input : List Nat) (width off : Nat) :
    ∀ (color : Nat) (st : LSt) (st' : LSt),
      firstLineLoop input width off color st = .ok st' → st.out % 4 = 0 →
      st'.out % 4 = 0 ∧ Frame off st'.output st.output := by
  have main : ∀ (k : Nat) (color : Nat) (st : LSt) (st' : LSt),
      input.length - st.pos ≤ k →
      firstLineLoop input width off color st = .ok st' → st.out % 4 = 0 →
      st'.out % 4 = 0 ∧ Frame off st'.output st.output := by
    intro k
    induction k with
    | zero =>
        intro color st st' hk h hout
        unfold firstLineLoop at h
        by_cases hw : st.indexw < width
        · rw [if_pos hw] at h
          split at h
          · exact absurd h (by simp)
          · dsimp only at h
            split at h
            · exact absurd h (by simp)
            · next code pos1 hr _ _ _ =>
                have := (readU8_ok input st.pos code pos1 hr).2.2
                omega
        · rw [if_neg hw] at h
          simp only [Except.ok.injEq] at h
          rw [← h]
          exact ⟨hout, Frame.refl4 off st.output⟩
    | succ m ih =>
        intro color st st' hk h hout
        unfold firstLineLoop at h
        by_cases hw : st.indexw < width
        · rw [if_pos hw] at h
          split at h
          · exact absurd h (by simp)
          · dsimp only at h
            split at h
            · exact absurd h (by simp)
            · next code pos1 hr color1 st1 hc =>
                obtain ⟨hget, hpos1, hlt⟩ := readU8_ok input st.pos code pos1 hr
                set rc := (if 16 ≤ (code &&& 15) <<< 4 ||| code >>> 4 &&& 15 ∧
                    (code &&& 15) <<< 4 ||| code >>> 4 &&& 15 ≤ 47 then
                    ((code &&& 15) <<< 4 ||| code >>> 4 &&& 15, 0)
                  else (code &&& 15, code >>> 4 &&& 15)) with hrc
                have hcf := firstColl_frame input off _ color _ color1 st1 hc
                  (by simp only; omega)
                have hcp := firstColl_pos input off _ color _ color1 st1 hc
                simp only at hcp hcf
                have hrf := firstRep_frame off rc.1 color1 st1 hcf.1
                have := ih color1 (firstRep off rc.1 color1 st1) st'
                  (by rw [firstRep_pos]; omega) h hrf.1
                exact ⟨this.1, (this.2.trans4 hrf.2).trans4 hcf.2⟩
        · rw [if_neg hw] at h
          simp only [Except.ok.injEq] at h
          rw [← h]
          exact ⟨hout, Frame.refl4 off st.output⟩
  intro color st st' h hout
  exact main (input.length - st.pos) color st st' le_rfl h hout

theorem deltaLineLoop_frame (input : List Nat) (width off lastLine : Nat) :
    ∀ (color : Int) (st : LSt) (st' : LSt),
      deltaLineLoop input width off lastLine color st = .ok st' → st.out % 4 = 0 →
      st'.out % 4 = 0 ∧ Frame off st'.output st.output := by
  have main : ∀ (k : Nat) (color : Int) (st : LSt) (st' : LSt),
      input.length - st.pos ≤ k →
      deltaLineLoop input width off lastLine color st = .ok st' → st.out % 4 = 0 →
      st'.out % 4 = 0 ∧ Frame off st'.output st.output := by
    intro k
    induction k with
    | zero =>
        intro color st st' hk h hout
        unfold deltaLineLoop at h
        by_cases hw : st.indexw < width
        · rw [if_pos hw] at h
          split at h
          · exact absurd h (by simp)
          · dsimp only at h
            split at h
            · exact absurd h (by simp)
            · next code pos1 hr _ _ _ =>
                have := (readU8_ok input st.pos code pos1 hr).2.2
                omega
        · rw [if_neg hw] at h
          simp only [Except.ok.injEq] at h
          rw [← h]
          exact ⟨hout, Frame.refl4 off st.output⟩
    | succ m ih =>
        intro color st st' hk h hout
        unfold deltaLineLoop at h
        by_cases hw : st.indexw < width
        · rw [if_pos hw] at h
          split at h
          · exact absurd h (by simp)
          · dsimp only at h
            split at h
            · exact absurd h (by simp)
            · next code pos1 hr color1 st1 hc =>
                obtain ⟨hget, hpos1, hlt⟩ := readU8_ok input st.pos code pos1 hr
                set rc := (if 16 ≤ (code &&& 15) <<< 4 ||| code >>> 4 &&& 15 ∧
                    (code &&& 15) <<< 4 ||| code >>> 4 &&& 15 ≤ 47 then
                    ((code &&& 15) <<< 4 ||| code >>> 4 &&& 15, 0)
                  else (code &&& 15, code >>> 4 &&& 15)) with hrc
                have hcf := deltaColl_frame input off lastLine _ color _ color1 st1 hc
                  (by simp only; omega)
                have hcp := deltaColl_pos input off lastLine _ color _ color1 st1 hc
                simp only at hcp hcf
                have hrf := deltaRep_frame off lastLine rc.1 color1 st1 hcf.1
                have := ih color1 (deltaRep off lastLine rc.1 color1 st1) st'
                  (by rw [deltaRep_pos]; omega) h hrf.1
                exact ⟨this.1, (this.2.trans4 hrf.2).trans4 hcf.2⟩
        · rw [if_neg hw] at h
          simp only [Except.ok.injEq] at h
          rw [← h]
          exact ⟨hout, Frame.refl4 off st.output⟩
  intro color st st' h hout
  exact main (input.length - st.pos) color st st' le_rfl h hout

theorem planeLines_frame (input : List Nat) (width off : Nat) :
    ∀ (r lastLine pos : Nat) (output : List Nat) (p' : Nat) (out' : List Nat),
      planeLines input width off r lastLine pos output = .ok (p', out') →
      Frame off out' output := by
  intro r
  induction r with
  | zero =>
      intro lastLine pos output p' out' h
      unfold planeLines at h
      simp only [Except.ok.injEq, Prod.mk.injEq] at h
      rw [← h.2]
      exact Frame.refl4 off output
  | succ m ih =>
      intro lastLine pos output p' out' h
      unfold planeLines at h
      have hout0 : (m * width * 4) % 4 = 0 := Nat.mul_mod_left (m * width) 4
      by_cases h0 : lastLine = 0
      · rw [if_pos h0] at h
        cases hf : firstLineLoop input width off 0 ⟨pos, m * width * 4, 0, output⟩ with
        | error e => rw [hf] at h; exact absurd h (by simp)
        | ok st' =>
            rw [hf] at h
            have h1 := firstLineLoop_frame input width off 0 _ st' hf hout0
            exact (ih _ _ _ _ _ h).trans4 h1.2
      · rw [if_neg h0] at h
        cases hd : deltaLineLoop input width off lastLine 0
            ⟨pos, m * width * 4, 0, output⟩ with
        | error e => rw [hd] at h; exact absurd h (by simp)
        | ok st' =>
            rw [hd] at h
            have h1 := deltaLineLoop_frame input width off lastLine 0 _ st' hd hout0
            exact (ih _ _ _ _ _ h).trans4 h1.2

theorem process_plane_frame (input : List Nat) (width height off pos : Nat)
    (output : List Nat) (p' : Nat) (out' : List Nat)
    (h : process_plane input width height off pos output = .ok (p', out')) :
    Frame off out' output :=
  planeLines_frame input width off height 0 pos output p' out' h

end Plane

/-- Claim C5: in `process_plane`, every line after the first (bottom) line
emits, at each column, the previous line's byte at that column plus a
signed delta taken mod 256, where the delta decoded from a byte `b` is
`b >> 1` when the low bit is clear and `-((b >> 1) + 1)` when it is set:
the source's cast-laden delta expression equals the spec's delta on every
byte, and the whole decoder equals its spec-worded variant on byte-valued
input. -/
theorem claim_C5_process_plane_delta :
    (∀ x : Nat, x < 256 → Plane.srcDelta x = Plane.specDelta x) ∧
    (∀ (input : List Nat) (width height off pos : Nat) (output : List Nat),
      (∀ b ∈ input, b < 256) →
      Plane.process_plane input width height off pos output =
        Plane.process_plane_spec input width height off pos output) :=
  ⟨Plane.srcDelta_eq_specDelta,
   fun input width height off pos output hin =>
     Plane.process_plane_eq_spec input width height off pos output hin⟩

/-- Witness for claim C5 on a concrete two-line, one-column plane: input
`0x01 0x05` (one literal byte 5 on the bottom line, then one literal delta
byte `0x05`, i.e. delta `+2`). -/
theorem claim_C5_witness :
    Plane.process_plane [0x01, 0x05, 0x01, 0x04] 1 2 0 0 [9, 9, 9, 9, 9, 9, 9, 9] =
      Plane.process_plane_spec [0x01, 0x05, 0x01, 0x04] 1 2 0 0 [9, 9, 9, 9, 9, 9, 9, 9] :=
  claim_C5_process_plane_delta.2 [0x01, 0x05, 0x01, 0x04] 1 2 0 0
    [9, 9, 9, 9, 9, 9, 9, 9] (by decide)

/-- Claim C4: `rle_32_decompress` fails with `RleDecode` whenever the first
input byte is not `0x10`; otherwise it decodes four consecutive planes
from the remaining input, the first landing in byte offset 3 of each
4-byte pixel, the second in offset 2, the third in offset 1 and the fourth
in offset 0 — later planes never disturb an earlier plane's byte lane. -/
theorem claim_C4_rle_32_planes :
    (∀ (b : Nat) (rest out : List Nat) (width height : Nat), b ≠ 0x10 →
      Plane.rle_32_decompress (b :: rest) width height out = .error .RleDecode) ∧
    (∀ (input out : List Nat) (width height p1 p2 p3 p4 : Nat)
        (o1 o2 o3 o4 : List Nat),
      input.get? 0 = some 0x10 →
      Plane.process_plane input width height 3 1 out = .ok (p1, o1) →
      Plane.process_plane input width height 2 p1 o1 = .ok (p2, o2) →
      Plane.process_plane input width height 1 p2 o2 = .ok (p3, o3) →
      Plane.process_plane input width height 0 p3 o3 = .ok (p4, o4) →
      Plane.rle_32_decompress input width height out = .ok o4 ∧
      (∀ i, i % 4 = 3 → o4.get? i = o1.get? i) ∧
      (∀ i, i % 4 = 2 → o4.get? i = o2.get? i) ∧
      (∀ i, i % 4 = 1 → o4.get? i = o3.get? i)) := by
  constructor
  · intro b rest out width height hb
    unfold Plane.rle_32_decompress Plane.readU8
    simp only [List.get?_cons_zero]
    rw [if_pos hb]
  · intro input out width height p1 p2 p3 p4 o1 o2 o3 o4 hget h1 h2 h3 h4
    have hf2 := Plane.process_plane_frame input width height 2 p1 o1 p2 o2 h2
    have hf3 := Plane.process_plane_frame input width height 1 p2 o2 p3 o3 h3
    have hf4 := Plane.process_plane_frame input width height 0 p3 o3 p4 o4 h4
    refine ⟨?_, ?_, ?_, ?_⟩
    · unfold Plane.rle_32_decompress Plane.readU8
      rw [hget]
      simp only [h1, h2, h3, h4]
      rw [if_neg (by decide : ¬(0x10 ≠ 0x10))]
    · intro i hi
      rw [hf4.2 i (by omega), hf3.2 i (by omega), hf2.2 i (by omega)]
    · intro i hi
      rw [hf4.2 i (by omega), hf3.2 i (by omega)]
    · intro i hi
      rw [hf4.2 i (by omega)]

/-- Witness for claim C4 at height 0 (each plane reads nothing and returns
its input unchanged), plus the bad-header case at first byte `0x11`. -/
theorem claim_C4_witness :
    Plane.rle_32_decompress [0x10] 1 0 [5, 6, 7] = .ok [5, 6, 7] ∧
    Plane.rle_32_decompress [0x11] 1 0 [5, 6, 7] = .error .RleDecode :=
  ⟨(claim_C4_rle_32_planes.2 [0x10] [5, 6, 7] 1 0 1 1 1 1
      [5, 6, 7] [5, 6, 7] [5, 6, 7] [5, 6, 7] rfl rfl rfl rfl rfl).1,
   claim_C4_rle_32_planes.1 0x11 [] [5, 6, 7] 1 0 (by decide)⟩

namespace Rle16

/-- The mutable state of `rle_16_decompress` (src/codec/rle.rs lines
127-140): cursor position, the output pixel buffer (16-bit values), and
the decoder registers.  `line`/`prevline` are offsets into the output,
`none` before the first wrap, as in the source's `Option<usize>`. -/
structure St where
  pos : Nat
  output : List Nat
  x : Nat
  height : Nat
  prevline : Option Nat
  line : Option Nat
  colour1 : Nat
  colour2 : Nat
  mix : Nat
  mask : Nat
  mixmask : Nat
  fomMask : Nat
  bicolour : Bool
  insertmix : Bool
  lastopcode : Nat
  count : Nat

/-- The state a result carries: errors keep the partially-written buffer,
as the source's `&mut [u16]` does. -/
def stOf : Except (RdpErrorKind × St) St → St
  | .ok st => st
  | .error (_, st) => st

/-- One byte from the cursor (end of stream is the wrapped I/O error). -/
def readU8 (input : List Nat) (st : St) : Except (RdpErrorKind × St) (Nat × St) :=
  match input.get? st.pos with
  | some b => .ok (b, { st with pos := st.pos + 1 })
  | none => .error (.Unknown, st)

/-- `read_u16::<LittleEndian>` on the cursor. -/
def readU16LE (input : List Nat) (st : St) : Except (RdpErrorKind × St) (Nat × St) :=
  match readU8 input st with
  | .error e => .error e
  | .ok (b0, st1) =>
    match readU8 input st1 with
    | .error e => .error e
    | .ok (b1, st2) => .ok (b0 + 256 * b1, st2)

/-- Unchanged at and above `bound`, with length kept: the no-overrun frame
of the output buffer. -/
def FrameW (bound : Nat) (a b : List Nat) : Prop :=
  a.length = b.length ∧ ∀ i, bound ≤ i → a.get? i = b.get? i

theorem FrameW.reflW (bound : Nat) (a : List Nat) : FrameW bound a a :=
  ⟨rfl, fun _ _ => rfl⟩

theorem FrameW.transW {bound : Nat} {a b c : List Nat} (h1 : FrameW bound a b)
    (h2 : FrameW bound b c) : FrameW bound a c :=
  ⟨h1.1.trans h2.1, fun i hi => (h1.2 i hi).trans (h2.2 i hi)⟩

theorem FrameW.setW {bound : Nat} {a : List Nat} {j v : Nat} (hj : j < bound) :
    FrameW bound (a.set j v) a :=
  ⟨a.length_set .., fun i hi => List.get?_set_ne v a (by omega)⟩

theorem readU8_spec (input : List Nat) (st : St) (b : Nat) (st' : St)
    (h : readU8 input st = .ok (b, st')) :
    st' = { st with pos := st.pos + 1 } ∧ st.pos < input.length := by
  unfold readU8 at h
  cases hg : input.get? st.pos with
  | none => rw [hg] at h; exact absurd h (by simp)
  | some c =>
      rw [hg] at h
      simp only [Except.ok.injEq, Prod.mk.injEq] at h
      exact ⟨h.2.symm, (List.get?_eq_some.mp hg).1⟩

theorem readU8_err (input : List Nat) (st : St) (e : RdpErrorKind × St)
    (h : readU8 input st = .error e) : e.2 = st := by
  unfold readU8 at h
  cases hg : input.get? st.pos with
  | none => rw [hg] at h; simp only [Except.error.injEq] at h; rw [← h]
  | some c => rw [hg] at h; exact absurd h (by simp)

theorem readU16LE_spec (input : List Nat) (st : St) (v : Nat) (st' : St)
    (h : readU16LE input st = .ok (v, st')) :
    st' = { st with pos := st.pos + 2 } := by
  unfold readU16LE at h
  cases h0 : readU8 input st with
  | error e => rw [h0] at h; exact absurd h (by simp)
  | ok w =>
      obtain ⟨b0, st1⟩ := w
      rw [h0] at h
      dsimp only at h
      cases h1 : readU8 input st1 with
      | error e => rw [h1] at h; exact absurd h (by simp)
      | ok w2 =>
          obtain ⟨b1, st2⟩ := w2
          rw [h1] at h
          simp only [Except.ok.injEq, Prod.mk.injEq] at h
          have e0 := (readU8_spec input st b0 st1 h0).1
          have e1 := (readU8_spec input st1 b1 st2 h1).1
          rw [← h.2, e1, e0]

theorem readU16LE_err (input : List Nat) (st : St) (e : RdpErrorKind × St)
    (h : readU16LE input st = .error e) :
    e.2 = st ∨ e.2 = { st with pos := st.pos + 1 } := by
  unfold readU16LE at h
  cases h0 : readU8 input st with
  | error e0 =>
      rw [h0] at h
      simp only [Except.error.injEq] at h
      exact Or.inl (h ▸ readU8_err input st e0 h0)
  | ok w =>
      obtain ⟨b0, st1⟩ := w
      rw [h0] at h
      dsimp only at h
      cases h1 : readU8 input st1 with
      | error e1 =>
          rw [h1] at h
          simp only [Except.error.injEq] at h
          have := readU8_err input st1 e1 h1
          rw [h] at this
          rw [this, (readU8_spec input st b0 st1 h0).1]
          exact Or.inr rfl
      | ok w2 => rw [h1] at h; exact absurd h (by simp)

/-- One pixel write of the inner `repeat!` loops of `rle_16_decompress`
(src/codec/rle.rs lines 226-308), for the post-transform opcode, with `l`
the unwrapped `line` offset.  Opcode 2 (FOM) first advances `mixmask`
(a `u8`, so the shift wraps every 8 pixels) and refreshes `mask`; opcode 4
reads a literal word; opcode 8 alternates the two colours, stretching
`count` by one when it starts a pair; the default arm is the source's
"invalid opcode" error. -/
def innerStep (input : List Nat) (op l : Nat) (st : St) :
    Except (RdpErrorKind × St) St :=
  match op with
  | 0 =>
    let v := match st.prevline with
      | some e => st.output.getD (e + st.x) 0
      | none => 0
    .ok { st with output := st.output.set (l + st.x) v }
  | 1 =>
    let v := match st.prevline with
      | some e => st.output.getD (e + st.x) 0 ^^^ st.mix
      | none => st.mix
    .ok { st with output := st.output.set (l + st.x) v }
  | 2 =>
    match (if (st.mixmask * 2) % 256 = 0 then
             match (if st.fomMask ≠ 0 then .ok (st.fomMask, st) else readU8 input st) with
             | .error e => .error e
             | .ok (m, stM) => .ok { stM with mask := m, mixmask := 1 }
           else .ok { st with mixmask := (st.mixmask * 2) % 256 } :
           Except (RdpErrorKind × St) St) with
    | .error e => .error e
    | .ok st2 =>
      let v := if st2.mask &&& st2.mixmask ≠ 0 then
          match st2.prevline with
          | some e => st2.output.getD (e + st2.x) 0 ^^^ st2.mix
          | none => st2.mix
        else
          match st2.prevline with
          | some e => st2.output.getD (e + st2.x) 0
          | none => 0
      .ok { st2 with output := st2.output.set (l + st2.x) v }
  | 3 => .ok { st with output := st.output.set (l + st.x) st.colour2 }
  | 4 =>
    match readU16LE input st with
    | .error e => .error e
    | .ok (v, st1) => .ok { st1 with output := st1.output.set (l + st1.x) v }
  | 8 =>
    if st.bicolour then
      .ok { st with bicolour := false, output := st.output.set (l + st.x) st.colour2 }
    else
      .ok { st with
            bicolour := true
            count := st.count + 1
            output := st.output.set (l + st.x) st.colour1 }
  | 13 => .ok { st with output := st.output.set (l + st.x) 0xffff }
  | 14 => .ok { st with output := st.output.set (l + st.x) 0 }
  | _ => .error (.RleDecode, st)

theorem innerStep_ok (input : List Nat) (op l : Nat) (st s' : St) (bound : Nat)
    (h : innerStep input op l st = .ok s') (hb : l + st.x < bound) :
    s'.x = st.x ∧ s'.height = st.height ∧ s'.line = st.line ∧
    s'.prevline = st.prevline ∧ s'.insertmix = st.insertmix ∧
    s'.count ≤ st.count + 1 ∧ st.pos ≤ s'.pos ∧
    FrameW bound s'.output st.output := by
  unfold innerStep at h
  split at h
  · simp only [Except.ok.injEq] at h
    subst h
    exact ⟨rfl, rfl, rfl, rfl, rfl, Nat.le_succ _, le_rfl, FrameW.setW hb⟩
  · simp only [Except.ok.injEq] at h
    subst h
    exact ⟨rfl, rfl, rfl, rfl, rfl, Nat.le_succ _, le_rfl, FrameW.setW hb⟩
  · -- opcode 2
    split at h
    · exact absurd h (by simp)
    · next st2 hst2 =>
        simp only [Except.ok.injEq] at h
        subst h
        split at hst2
        · split at hst2
          · exact absurd hst2 (by simp)
          · next m stM hrm =>
              simp only [Except.ok.injEq] at hst2
              subst hst2
              split at hrm
              · simp only [Except.ok.injEq, Prod.mk.injEq] at hrm
                obtain ⟨hm, hstM⟩ := hrm
                subst hstM
                exact ⟨rfl, rfl, rfl, rfl, rfl, Nat.le_succ _, le_rfl, FrameW.setW hb⟩
              · have := readU8_spec input st m stM hrm
                rw [this.1]
                exact ⟨rfl, rfl, rfl, rfl, rfl, Nat.le_succ _, Nat.le_succ _,
                  FrameW.setW (by exact hb)⟩
        · simp only [Except.ok.injEq] at hst2
          subst hst2
          exact ⟨rfl, rfl, rfl, rfl, rfl, Nat.le_succ _, le_rfl, FrameW.setW hb⟩
  · simp only [Except.ok.injEq] at h
    subst h
    exact ⟨rfl, rfl, rfl, rfl, rfl, Nat.le_succ _, le_rfl, FrameW.setW hb⟩
  · -- opcode 4
    split at h
    · exact absurd h (by simp)
    · next v st1 hr16 =>
        simp only [Except.ok.injEq] at h
        subst h
        have := readU16LE_spec input st v st1 hr16
        rw [this]
        exact ⟨rfl, rfl, rfl, rfl, rfl, Nat.le_succ _, Nat.le_add_right _ 2,
          FrameW.setW (by exact hb)⟩
  · -- opcode 8
    split at h
    · simp only [Except.ok.injEq] at h
      subst h
      exact ⟨rfl, rfl, rfl, rfl, rfl, Nat.le_succ _, le_rfl, FrameW.setW hb⟩
    · simp only [Except.ok.injEq] at h
      subst h
      exact ⟨rfl, rfl, rfl, rfl, rfl, le_rfl, le_rfl, FrameW.setW hb⟩
  · simp only [Except.ok.injEq] at h
    subst h
    exact ⟨rfl, rfl, rfl, rfl, rfl, Nat.le_succ _, le_rfl, FrameW.setW hb⟩
  · simp only [Except.ok.injEq] at h
    subst h
    exact ⟨rfl, rfl, rfl, rfl, rfl, Nat.le_succ _, le_rfl, FrameW.setW hb⟩
  · exact absurd h (by simp)

theorem innerStep_err (input : List Nat) (op l : Nat) (st : St)
    (e : RdpErrorKind × St) (h : innerStep input op l st = .error e) :
    e.2.output = st.output := by
  unfold innerStep at h
  split at h
  · exact absurd h (by simp)
  · exact absurd h (by simp)
  · split at h
    · next e2 he2 =>
        simp only [Except.error.injEq] at h
        rw [← h]
        split at he2
        · split at he2
          · next e3 he3 =>
              simp only [Except.error.injEq] at he2
              rw [← he2]
              split at he3
              · exact absurd he3 (by simp)
              · rw [readU8_err input st e3 he3]
          · exact absurd he2 (by simp)
        · exact absurd he2 (by simp)
    · exact absurd h (by simp)
  · exact absurd h (by simp)
  · split at h
    · next e2 he2 =>
        simp only [Except.error.injEq] at h
        rw [← h]
        rcases readU16LE_err input st e2 he2 with h1 | h1 <;> rw [h1]
    · exact absurd h (by simp)
  · split at h
    · exact absurd h (by simp)
    · exact absurd h (by simp)
  · exact absurd h (by simp)
  · exact absurd h (by simp)
  · simp only [Except.error.injEq] at h
    rw [← h]

/-- One iteration of a `repeat!` loop body (src/codec/rle.rs lines 91-124):
the opcode's write followed by `count -= 1; x += 1`. -/
def stepOnce (input : List Nat) (op l : Nat) (st : St) :
    Except (RdpErrorKind × St) St :=
  match innerStep input op l st with
  | .error e => .error e
  | .ok s1 => .ok { s1 with count := s1.count - 1, x := s1.x + 1 }

theorem stepOnce_ok (input : List Nat) (op l : Nat) (st s' : St) (bound : Nat)
    (h : stepOnce input op l st = .ok s') (hb : l + st.x < bound) :
    s'.x = st.x + 1 ∧ s'.height = st.height ∧ s'.line = st.line ∧
    s'.prevline = st.prevline ∧ s'.insertmix = st.insertmix ∧
    s'.count ≤ st.count ∧ st.pos ≤ s'.pos ∧
    FrameW bound s'.output st.output := by
  unfold stepOnce at h
  cases hs : innerStep input op l st with
  | error e => rw [hs] at h; exact absurd h (by simp)
  | ok s1 =>
      rw [hs] at h
      simp only [Except.ok.injEq] at h
      obtain ⟨hx, hh, hl, hp, hi, hc, hpos, hf⟩ := innerStep_ok input op l st s1 bound hs hb
      rw [← h]
      exact ⟨by simp [hx], by simp [hh], by simp [hl], by simp [hp], by simp [hi],
        by simp; omega, by simpa using hpos, by simpa using hf⟩

theorem stepOnce_err (input : List Nat) (op l : Nat) (st : St)
    (e : RdpErrorKind × St) (h : stepOnce input op l st = .error e) :
    e.2.output = st.output := by
  unfold stepOnce at h
  cases hs : innerStep input op l st with
  | error e2 =>
      rw [hs] at h
      simp only [Except.error.injEq] at h
      rw [← h]
      exact innerStep_err input op l st e2 hs
  | ok s1 => rw [hs] at h; exact absurd h (by simp)

/-- `n` successive `repeat!` iterations; the source's eight-step unrolled
loop body is `stepN 8`. -/
def stepN (input : List Nat) (op l : Nat) : Nat → St → Except (RdpErrorKind × St) St
  | 0, st => .ok st
  | n + 1, st =>
    match stepOnce input op l st with
    | .error e => .error e
    | .ok s => stepN input op l n s

theorem stepN_spec (input : List Nat) (op l bound : Nat) :
    ∀ (n : Nat) (st : St), l + st.x + n ≤ bound →
      FrameW bound (stOf (stepN input op l n st)).output st.output ∧
      (∀ s', stepN input op l n st = .ok s' →
        s'.x = st.x + n ∧ s'.height = st.height ∧ s'.line = st.line ∧
        s'.prevline = st.prevline ∧ s'.insertmix = st.insertmix ∧
        s'.count ≤ st.count ∧ st.pos ≤ s'.pos) := by
  intro n
  induction n with
  | zero =>
      intro st hb
      refine ⟨FrameW.reflW bound _, fun s' h => ?_⟩
      unfold stepN at h
      simp only [Except.ok.injEq] at h
      rw [← h]
      exact ⟨rfl, rfl, rfl, rfl, rfl, le_rfl, le_rfl⟩
  | succ m ih =>
      intro st hb
      unfold stepN
      cases hs : stepOnce input op l st with
      | error e =>
          refine ⟨?_, fun s' h => absurd h (by simp)⟩
          have := stepOnce_err input op l st e hs
          unfold stOf
          rw [this]
          exact FrameW.reflW bound _
      | ok s1 =>
          obtain ⟨hx, hh, hl, hp, hi, hc, hpos, hf⟩ :=
            stepOnce_ok input op l st s1 bound hs (by omega)
          have hrec := ih s1 (by omega)
          refine ⟨hrec.1.transW hf, fun s' h => ?_⟩
          obtain ⟨rx, rh, rl, rp, ri, rc, rpos⟩ := hrec.2 s' h
          exact ⟨by omega, by rw [rh, hh], by rw [rl, hl], by rw [rp, hp],
            by rw [ri, hi], by omega, by omega⟩

theorem stepN_add (input : List Nat) (op l : Nat) :
    ∀ (a b : Nat) (st : St), stepN input op l (a + b) st =
      match stepN input op l a st with
      | .error e => .error e
      | .ok s => stepN input op l b s := by
  intro a
  induction a with
  | zero =>
      intro b st
      simp only [Nat.zero_add]
      rfl
  | succ m ih =>
      intro b st
      have hab : m + 1 + b = (m + b) + 1 := by omega
      rw [hab]
      show (match stepOnce input op l st with
            | Except.error e => Except.error e
            | Except.ok s => stepN input op l (m + b) s) = _
      cases hs : stepOnce input op l st with
      | error e =>
          rw [show stepN input op l (m + 1) st = .error e from by
            rw [stepN.eq_2, hs]]
      | ok s1 =>
          rw [show stepN input op l (m + 1) st = stepN input op l m s1 from by
            rw [stepN.eq_2, hs]]
          exact ih b s1

/-- The trailing loop of `repeat!` (src/codec/rle.rs lines 119-123):
single steps while `count > 0 && x < width`. -/
def repeatB (input : List Nat) (width op l : Nat) (st : St) :
    Except (RdpErrorKind × St) St :=
  if h : 0 < st.count ∧ st.x < width then
    match hs : stepOnce input op l st with
    | .error e => .error e
    | .ok s => repeatB input width op l s
  else .ok st
termination_by st.count + 2 * (width - st.x)
decreasing_by
  have := stepOnce_ok input op l st s (l + st.x + 1) hs (by omega)
  omega

/-- The unrolled head loop of `repeat!` (src/codec/rle.rs lines 93-118):
while `count & !0x7 != 0` (i.e. `count - count % 8 ≠ 0`) and `x + 8 <
width`, run eight steps, then fall through to the trailing loop. -/
def repeatA (input : List Nat) (width op l : Nat) (st : St) :
    Except (RdpErrorKind × St) St :=
  if h : st.count - st.count % 8 ≠ 0 ∧ st.x + 8 < width then
    match hs : stepN input op l 8 st with
    | .error e => .error e
    | .ok s => repeatA input width op l s
  else repeatB input width op l st
termination_by st.count + 2 * (width - st.x)
decreasing_by
  have := (stepN_spec input op l (l + st.x + 8) 8 st (by omega)).2 s hs
  omega

theorem repeatB_spec (input : List Nat) (width op l bound : Nat)
    (hl : l + width ≤ bound) :
    ∀ st, FrameW bound (stOf (repeatB input width op l st)).output st.output ∧
      (∀ s', repeatB input width op l st = .ok s' →
        s'.height = st.height ∧ s'.line = st.line ∧ s'.prevline = st.prevline ∧
        s'.insertmix = st.insertmix ∧ st.pos ≤ s'.pos ∧
        s'.count + 2 * (width - s'.x) ≤ st.count + 2 * (width - st.x) ∧
        (0 < st.count ∧ st.x < width →
          s'.count + 2 * (width - s'.x) < st.count + 2 * (width - st.x)) ∧
        (s'.count = 0 ∨ width ≤ s'.x)) := by
  have main : ∀ (k : Nat) (st : St), st.count + 2 * (width - st.x) ≤ k →
      FrameW bound (stOf (repeatB input width op l st)).output st.output ∧
      (∀ s', repeatB input width op l st = .ok s' →
        s'.height = st.height ∧ s'.line = st.line ∧ s'.prevline = st.prevline ∧
        s'.insertmix = st.insertmix ∧ st.pos ≤ s'.pos ∧
        s'.count + 2 * (width - s'.x) ≤ st.count + 2 * (width - st.x) ∧
        (0 < st.count ∧ st.x < width →
          s'.count + 2 * (width - s'.x) < st.count + 2 * (width - st.x)) ∧
        (s'.count = 0 ∨ width ≤ s'.x)) := by
    intro k
    induction k with
    | zero =>
        intro st hk
        unfold repeatB
        rw [dif_neg (by omega)]
        refine ⟨FrameW.reflW bound _, fun s' h => ?_⟩
        simp only [Except.ok.injEq] at h
        rw [← h]
        exact ⟨rfl, rfl, rfl, rfl, le_rfl, le_rfl, by omega, by omega⟩
    | succ m ih =>
        intro st hk
        unfold repeatB
        by_cases hg : 0 < st.count ∧ st.x < width
        · rw [dif_pos hg]
          cases hs : stepOnce input op l st with
          | error e =>
              simp only [hs]
              refine ⟨?_, fun s' h => absurd h (by simp)⟩
              have := stepOnce_err input op l st e hs
              unfold stOf
              rw [this]
              exact FrameW.reflW bound _
          | ok s =>
              simp only [hs]
              obtain ⟨hx, hh, hli, hp, hi, hc, hpos, hf⟩ :=
                stepOnce_ok input op l st s bound hs (by omega)
              have hrec := ih s (by omega)
              refine ⟨hrec.1.transW hf, fun s' h => ?_⟩
              obtain ⟨rh, rl, rp, ri, rpos, rle, _, rexit⟩ := hrec.2 s' h
              refine ⟨by rw [rh, hh], by rw [rl, hli], by rw [rp, hp],
                by rw [ri, hi], by omega, by omega, fun _ => by omega, rexit⟩
        · rw [dif_neg hg]
          refine ⟨FrameW.reflW bound _, fun s' h => ?_⟩
          simp only [Except.ok.injEq] at h
          rw [← h]
          exact ⟨rfl, rfl, rfl, rfl, le_rfl, le_rfl, fun hcontra => absurd hcontra hg,
            by omega⟩
  intro st
  exact main (st.count + 2 * (width - st.x)) st le_rfl

theorem repeatA_spec (input : List Nat) (width op l bound : Nat)
    (hl : l + width ≤ bound) :
    ∀ st, FrameW bound (stOf (repeatA input width op l st)).output st.output ∧
      (∀ s', repeatA input width op l st = .ok s' →
        s'.height = st.height ∧ s'.line = st.line ∧ s'.prevline = st.prevline ∧
        s'.insertmix = st.insertmix ∧ st.pos ≤ s'.pos ∧
        s'.count + 2 * (width - s'.x) ≤ st.count + 2 * (width - st.x) ∧
        (0 < st.count ∧ st.x < width →
          s'.count + 2 * (width - s'.x) < st.count + 2 * (width - st.x)) ∧
        (s'.count = 0 ∨ width ≤ s'.x)) := by
  have main : ∀ (k : Nat) (st : St), st.count + 2 * (width - st.x) ≤ k →
      FrameW bound (stOf (repeatA input width op l st)).output st.output ∧
      (∀ s', repeatA input width op l st = .ok s' →
        s'.height = st.height ∧ s'.line = st.line ∧ s'.prevline = st.prevline ∧
        s'.insertmix = st.insertmix ∧ st.pos ≤ s'.pos ∧
        s'.count + 2 * (width - s'.x) ≤ st.count + 2 * (width - st.x) ∧
        (0 < st.count ∧ st.x < width →
          s'.count + 2 * (width - s'.x) < st.count + 2 * (width - st.x)) ∧
        (s'.count = 0 ∨ width ≤ s'.x)) := by
    intro k
    induction k with
    | zero =>
        intro st hk
        unfold repeatA
        rw [dif_neg (by omega)]
        exact repeatB_spec input width op l bound hl st
    | succ m ih =>
        intro st hk
        unfold repeatA
        by_cases hg : st.count - st.count % 8 ≠ 0 ∧ st.x + 8 < width
        · rw [dif_pos hg]
          cases hs : stepN input op l 8 st with
          | error e =>
              simp only [hs]
              refine ⟨?_, fun s' h => absurd h (by simp)⟩
              have := (stepN_spec input op l bound 8 st (by omega)).1
              rw [hs] at this
              exact this
          | ok s =>
              simp only [hs]
              have hsp := stepN_spec input op l bound 8 st (by omega)
              obtain ⟨hx, hh, hli, hp, hi, hc, hpos⟩ := hsp.2 s hs
              have hfr : FrameW bound s.output st.output := by
                have := hsp.1
                rw [hs] at this
                exact this
              have hrec := ih s (by omega)
              refine ⟨hrec.1.transW hfr, fun s' h => ?_⟩
              obtain ⟨rh, rl, rp, ri, rpos, rle, _, rexit⟩ := hrec.2 s' h
              refine ⟨by rw [rh, hh], by rw [rl, hli], by rw [rp, hp],
                by rw [ri, hi], by omega, by omega, fun _ => by omega, rexit⟩
        · rw [dif_neg hg]
          exact repeatB_spec input width op l bound hl st
  intro st
  exact main (st.count + 2 * (width - st.x)) st le_rfl

/-- The post-transform opcodes the inner match accepts; anything else hits
the source's "invalid opcode" arm. -/
def validOp (op : Nat) : Bool :=
  op = 0 || op = 1 || op = 2 || op = 3 || op = 4 || op = 8 || op = 13 || op = 14

/-- The one-shot `insertmix` write at the head of a background run
(src/codec/rle.rs lines 228-233). -/
def insertStep (l : Nat) (st : St) : St :=
  { st with
    output := st.output.set (l + st.x) (match st.prevline with
      | some e => st.output.getD (e + st.x) 0 ^^^ st.mix
      | none => st.mix)
    insertmix := false
    count := st.count - 1
    x := st.x + 1 }

/-- The wrap to the next (upward) row when the cursor passes the right edge
(src/codec/rle.rs lines 210-221): `x` resets, `height` decrements, the
previous-line pointer follows, the line pointer becomes `height * width`. -/
def wrapSt (width : Nat) (st : St) : St :=
  { st with
    x := 0
    height := st.height - 1
    prevline := st.line
    line := some ((st.height - 1) * width) }

/-- The `while count > 0` loop of `rle_16_decompress` (src/codec/rle.rs
lines 209-309) for one decoded opcode: wrap check (failing with
`RleDecode` when `height` is exhausted), line unwrap, the opcode-0
`insertmix` head write, then the `repeat!` run. -/
def innerLoop (input : List Nat) (width op : Nat) (st : St) :
    Except (RdpErrorKind × St) St :=
  if hc : st.count = 0 then .ok st
  else if hwx : width ≤ st.x then
    if hh : st.height = 0 then .error (.RleDecode, st)
    else
      if hv : validOp op = true then
        match hra : repeatA input width op ((st.height - 1) * width)
            (if op = 0 ∧ st.insertmix then
               insertStep ((st.height - 1) * width) (wrapSt width st)
             else wrapSt width st) with
        | .error e => .error e
        | .ok st3 => innerLoop input width op st3
      else
        .error (.RleDecode,
          if op = 0 ∧ st.insertmix then
            insertStep ((st.height - 1) * width) (wrapSt width st)
          else wrapSt width st)
  else
    match st.line with
    | none => .error (.RleDecode, st)
    | some l =>
      if hv : validOp op = true then
        match hra : repeatA input width op l
            (if op = 0 ∧ st.insertmix then insertStep l st else st) with
        | .error e => .error e
        | .ok st3 => innerLoop input width op st3
      else .error (.RleDecode, if op = 0 ∧ st.insertmix then insertStep l st else st)
termination_by (st.height, st.count + 2 * (width - st.x))
decreasing_by
· have hsp := (repeatA_spec input width op ((st.height - 1) * width)
    (((st.height - 1) * width) + width) le_rfl
    (if op = 0 ∧ st.insertmix then
       insertStep ((st.height - 1) * width) (wrapSt width st)
     else wrapSt width st)).2 st3 hra
  have h2 : (if op = 0 ∧ st.insertmix then
      insertStep ((st.height - 1) * width) (wrapSt width st)
    else wrapSt width st).height = st.height - 1 := by
    split_ifs <;> rfl
  have e1 := hsp.1
  rw [h2] at e1
  exact Prod.Lex.left _ _ (by omega)
· have hsp := (repeatA_spec input width op l (l + width) le_rfl
    (if op = 0 ∧ st.insertmix then insertStep l st else st)).2 st3 hra
  obtain ⟨e1, _, _, _, _, hle, hstrict, _⟩ := hsp
  by_cases hins : op = 0 ∧ st.insertmix
  · rw [if_pos hins] at e1 hle hstrict
    have q1 : (insertStep l st).count = st.count - 1 := rfl
    have q2 : (insertStep l st).x = st.x + 1 := rfl
    have q3 : (insertStep l st).height = st.height := rfl
    have hh3 : st3.height = st.height := by rw [e1, q3]
    rw [hh3]
    exact Prod.Lex.right _ (by omega)
  · rw [if_neg hins] at e1 hle hstrict
    have hh3 : st3.height = st.height := e1
    rw [hh3]
    exact Prod.Lex.right _ (hstrict ⟨by omega, by omega⟩)

/-- With zero width neither `repeat!` loop can run: both guards need the
cursor left of the right edge. -/
theorem repeatA_w0 (input : List Nat) (op l : Nat) (s : St) :
    repeatA input 0 op l s = .ok s := by
  unfold repeatA
  rw [dif_neg (by omega)]
  unfold repeatB
  rw [dif_neg (by omega)]

/-- The loop invariant of `rle_16_decompress` for an original height `h0`:
the running `height` never exceeds it, the `line` pointer is always
`height * width` with at least one row left inside the image, the
previous-line pointer is one row above it with two rows inside, and a
degenerate zero width never has a pending `insertmix` (the first
background run errors out before one can be set). -/
def InvL (width h0 : Nat) (st : St) : Prop :=
  st.height ≤ h0 ∧
  (∀ l, st.line = some l → l = st.height * width ∧ st.height + 1 ≤ h0) ∧
  (∀ e, st.prevline = some e → e = (st.height + 1) * width ∧ st.height + 2 ≤ h0) ∧
  (width = 0 → st.insertmix = false)

theorem mul_bound {h h0 : Nat} (w : Nat) (hh : h ≤ h0) : h * w ≤ w * h0 := by
  rw [Nat.mul_comm]
  exact Nat.mul_le_mul_left w hh

theorem pred_mul_add (h w : Nat) (hh : h ≠ 0) : (h - 1) * w + w = h * w := by
  have h1 : h - 1 + 1 = h := by omega
  calc (h - 1) * w + w = (h - 1 + 1) * w := by ring
    _ = h * w := by rw [h1]

theorem innerLoop_spec (input : List Nat) (width op h0 : Nat) :
    ∀ st, InvL width h0 st →
      FrameW (width * h0) (stOf (innerLoop input width op st)).output st.output ∧
      (∀ st', innerLoop input width op st = .ok st' →
        st.pos ≤ st'.pos ∧ InvL width h0 st' ∧
        (width = 0 → st' = st ∧ st.count = 0)) := by
  intro st
  induction st using innerLoop.induct input width op with
  | case1 x hc =>
      intro hInv
      have hrw : innerLoop input width op x = .ok x := by
        unfold innerLoop
        rw [dif_pos hc]
      rw [hrw]
      refine ⟨FrameW.reflW _ _, fun st' h => ?_⟩
      simp only [Except.ok.injEq] at h
      rw [← h]
      exact ⟨le_rfl, hInv, fun _ => ⟨rfl, hc⟩⟩
  | case2 x hc hwx hh =>
      intro hInv
      have hrw : innerLoop input width op x = .error (.RleDecode, x) := by
        unfold innerLoop
        rw [dif_neg hc, dif_pos hwx, dif_pos hh]
      rw [hrw]
      exact ⟨FrameW.reflW _ _, fun st' h => absurd h (by simp)⟩
  | case3 x hc hwx hh hv e hra =>
      intro hInv
      simp only [dite_eq_ite] at hra
      have hrw : innerLoop input width op x = .error e := by
        unfold innerLoop
        rw [dif_neg hc, dif_pos hwx, dif_neg hh, dif_pos hv]
        split
        next e2 heq =>
          rw [heq] at hra
          injection hra with h2
          rw [h2]
        next s3 heq =>
          rw [heq] at hra
          exact Except.noConfusion hra
      rw [hrw]
      have hl : (x.height - 1) * width + width ≤ width * h0 := by
        rw [pred_mul_add x.height width hh]
        exact mul_bound width hInv.1
      have hfa := (repeatA_spec input width op ((x.height - 1) * width) (width * h0) hl
        (if op = 0 ∧ x.insertmix then
           insertStep ((x.height - 1) * width) (wrapSt width x)
         else wrapSt width x)).1
      rw [hra] at hfa
      have hst2 : FrameW (width * h0)
          (if op = 0 ∧ x.insertmix then
             insertStep ((x.height - 1) * width) (wrapSt width x)
           else wrapSt width x).output x.output := by
        split_ifs with hi
        · have hw0 : width ≠ 0 := by
            intro h0eq
            exact absurd (hInv.2.2.2 h0eq) (by simp [hi.2])
          exact FrameW.setW (by
            show (x.height - 1) * width + (wrapSt width x).x < width * h0
            have : (wrapSt width x).x = 0 := rfl
            omega)
        · exact FrameW.reflW _ _
      exact ⟨hfa.transW hst2, fun st' h => absurd h (by simp)⟩
  | case4 x hc hwx hh hv st3 hra ih =>
      intro hInv
      simp only [dite_eq_ite] at hra
      have hrw : innerLoop input width op x = innerLoop input width op st3 := by
        conv_lhs => unfold innerLoop
        rw [dif_neg hc, dif_pos hwx, dif_neg hh, dif_pos hv]
        split
        next e2 heq =>
          rw [heq] at hra
          exact Except.noConfusion hra
        next s3 heq =>
          rw [heq] at hra
          injection hra with h2
          rw [h2]
      have hl : (x.height - 1) * width + width ≤ width * h0 := by
        rw [pred_mul_add x.height width hh]
        exact mul_bound width hInv.1
      have hsp := repeatA_spec input width op ((x.height - 1) * width) (width * h0) hl
        (if op = 0 ∧ x.insertmix then
           insertStep ((x.height - 1) * width) (wrapSt width x)
         else wrapSt width x)
      obtain ⟨e1, e2, e3, e4, e5, _, _, _⟩ := hsp.2 st3 hra
      have hfa := hsp.1
      rw [hra] at hfa
      have hst2 : FrameW (width * h0)
          (if op = 0 ∧ x.insertmix then
             insertStep ((x.height - 1) * width) (wrapSt width x)
           else wrapSt width x).output x.output := by
        split_ifs with hi
        · have hw0 : width ≠ 0 := by
            intro h0eq
            exact absurd (hInv.2.2.2 h0eq) (by simp [hi.2])
          exact FrameW.setW (by
            show (x.height - 1) * width + (wrapSt width x).x < width * h0
            have : (wrapSt width x).x = 0 := rfl
            omega)
        · exact FrameW.reflW _ _
      -- the state entering the run satisfies the invariant
      have hInv2 : InvL width h0
          (if op = 0 ∧ x.insertmix then
             insertStep ((x.height - 1) * width) (wrapSt width x)
           else wrapSt width x) := by
        have hbase : InvL width h0 (wrapSt width x) := by
          refine ⟨by show x.height - 1 ≤ h0; have := hInv.1; omega, fun l hl2 => ?_, fun e he => ?_, fun hw0 => ?_⟩
          · simp only [wrapSt, Option.some.injEq] at hl2
            refine ⟨hl2.symm, ?_⟩
            show x.height - 1 + 1 ≤ h0
            have := hInv.1
            omega
          · have he2 : x.line = some e := he
            obtain ⟨hev, hhb⟩ := hInv.2.1 e he2
            constructor
            · show e = (x.height - 1 + 1) * width
              rw [hev]
              congr 1
              omega
            · show x.height - 1 + 2 ≤ h0
              omega
          · exact hInv.2.2.2 hw0
        split_ifs with hi
        · exact ⟨hbase.1, hbase.2.1, hbase.2.2.1, fun hw0 => rfl⟩
        · exact hbase
      have hInv3 : InvL width h0 st3 := by
        refine ⟨?_, ?_, ?_, ?_⟩
        · rw [e1]; exact hInv2.1
        · intro l hl3
          rw [e2] at hl3
          have := hInv2.2.1 l hl3
          rw [e1]
          exact this
        · intro e he3
          rw [e3] at he3
          have := hInv2.2.2.1 e he3
          rw [e1]
          exact this
        · intro hw0
          rw [e4]
          exact hInv2.2.2.2 hw0
      have hih := ih hInv3
      rw [hrw]
      refine ⟨hih.1.transW (hfa.transW hst2), fun st' h => ?_⟩
      obtain ⟨hpos, hInv', hW0⟩ := hih.2 st' h
      refine ⟨?_, hInv', fun hw0 => ?_⟩
      · have hp2 : x.pos ≤ (if op = 0 ∧ x.insertmix then
            insertStep ((x.height - 1) * width) (wrapSt width x)
          else wrapSt width x).pos := by
          split_ifs <;> exact le_rfl
        omega
      · -- zero width: the run is a no-op, the recursion cannot succeed
        exfalso
        have hins : x.insertmix = false := hInv.2.2.2 hw0
        have hnofire : ¬(op = 0 ∧ x.insertmix) := by simp [hins]
        rw [if_neg hnofire] at hra
        rw [hw0] at hra
        rw [repeatA_w0 input op _ _] at hra
        simp only [Except.ok.injEq] at hra
        have hcount : st3.count = x.count := by
          rw [← hra]
          rfl
        obtain ⟨_, hc3⟩ := hW0 hw0
        exact hc (by rw [← hcount, hc3])
  | case5 x hc hwx hh hv =>
      intro hInv
      have hrw : innerLoop input width op x = .error (.RleDecode,
          if op = 0 ∧ x.insertmix then
            insertStep ((x.height - 1) * width) (wrapSt width x)
          else wrapSt width x) := by
        unfold innerLoop
        rw [dif_neg hc, dif_pos hwx, dif_neg hh, dif_neg hv]
      rw [hrw]
      have hl : (x.height - 1) * width + width ≤ width * h0 := by
        rw [pred_mul_add x.height width hh]
        exact mul_bound width hInv.1
      have hst2 : FrameW (width * h0)
          (if op = 0 ∧ x.insertmix then
             insertStep ((x.height - 1) * width) (wrapSt width x)
           else wrapSt width x).output x.output := by
        split_ifs with hi
        · have hw0 : width ≠ 0 := by
            intro h0eq
            exact absurd (hInv.2.2.2 h0eq) (by simp [hi.2])
          exact FrameW.setW (by
            show (x.height - 1) * width + (wrapSt width x).x < width * h0
            have : (wrapSt width x).x = 0 := rfl
            omega)
        · exact FrameW.reflW _ _
      exact ⟨hst2, fun st' h => absurd h (by simp)⟩
  | case6 x hc hwx hli =>
      intro hInv
      have hrw : innerLoop input width op x = .error (.RleDecode, x) := by
        unfold innerLoop
        rw [dif_neg hc, dif_neg hwx]
        simp only [hli]
      rw [hrw]
      exact ⟨FrameW.reflW _ _, fun st' h => absurd h (by simp)⟩
  | case7 x hc hwx l hli hv e hra =>
      intro hInv
      simp only [dite_eq_ite] at hra
      obtain ⟨hlv, hlb⟩ := hInv.2.1 l hli
      have hrw : innerLoop input width op x = .error e := by
        unfold innerLoop
        rw [dif_neg hc, dif_neg hwx]
        simp only [hli]
        rw [dif_pos hv]
        split
        next e2 heq =>
          rw [heq] at hra
          injection hra with h2
          rw [h2]
        next s3 heq =>
          rw [heq] at hra
          exact Except.noConfusion hra
      rw [hrw]
      have hl : l + width ≤ width * h0 := by
        have h1 : l + width = (x.height + 1) * width := by
          rw [hlv]
          ring
        rw [h1]
        exact mul_bound width hlb
      have hfa := (repeatA_spec input width op l (width * h0) hl
        (if op = 0 ∧ x.insertmix then insertStep l x else x)).1
      rw [hra] at hfa
      have hst2 : FrameW (width * h0)
          (if op = 0 ∧ x.insertmix then insertStep l x else x).output x.output := by
        split_ifs with hi
        · exact FrameW.setW (by omega)
        · exact FrameW.reflW _ _
      exact ⟨hfa.transW hst2, fun st' h => absurd h (by simp)⟩
  | case8 x hc hwx l hli hv st3 hra ih =>
      intro hInv
      simp only [dite_eq_ite] at hra
      obtain ⟨hlv, hlb⟩ := hInv.2.1 l hli
      have hrw : innerLoop input width op x = innerLoop input width op st3 := by
        conv_lhs => unfold innerLoop
        rw [dif_neg hc, dif_neg hwx]
        simp only [hli]
        rw [dif_pos hv]
        split
        next e2 heq =>
          rw [heq] at hra
          exact Except.noConfusion hra
        next s3 heq =>
          rw [heq] at hra
          injection hra with h2
          rw [h2]
      have hl : l + width ≤ width * h0 := by
        have h1 : l + width = (x.height + 1) * width := by
          rw [hlv]
          ring
        rw [h1]
        exact mul_bound width hlb
      have hsp := repeatA_spec input width op l (width * h0) hl
        (if op = 0 ∧ x.insertmix then insertStep l x else x)
      obtain ⟨e1, e2, e3, e4, e5, _, _, _⟩ := hsp.2 st3 hra
      have hfa := hsp.1
      rw [hra] at hfa
      have hst2 : FrameW (width * h0)
          (if op = 0 ∧ x.insertmix then insertStep l x else x).output x.output := by
        split_ifs with hi
        · exact FrameW.setW (by omega)
        · exact FrameW.reflW _ _
      have hInv2 : InvL width h0 (if op = 0 ∧ x.insertmix then insertStep l x else x) := by
        split_ifs with hi
        · exact ⟨hInv.1, hInv.2.1, hInv.2.2.1, fun hw0 => rfl⟩
        · exact hInv
      have hInv3 : InvL width h0 st3 := by
        refine ⟨?_, ?_, ?_, ?_⟩
        · rw [e1]; exact hInv2.1
        · intro lv hl3
          rw [e2] at hl3
          have := hInv2.2.1 lv hl3
          rw [e1]
          exact this
        · intro ev he3
          rw [e3] at he3
          have := hInv2.2.2.1 ev he3
          rw [e1]
          exact this
        · intro hw0
          rw [e4]
          exact hInv2.2.2.2 hw0
      have hih := ih hInv3
      rw [hrw]
      refine ⟨hih.1.transW (hfa.transW hst2), fun st' h => ?_⟩
      obtain ⟨hpos, hInv', hW0⟩ := hih.2 st' h
      refine ⟨?_, hInv', fun hw0 => absurd hwx (by omega)⟩
      have hp2 : x.pos ≤ (if op = 0 ∧ x.insertmix then insertStep l x else x).pos := by
        split_ifs <;> exact le_rfl
      omega
  | case9 x hc hwx l hli hv =>
      intro hInv
      obtain ⟨hlv, hlb⟩ := hInv.2.1 l hli
      have hrw : innerLoop input width op x = .error (.RleDecode,
          if op = 0 ∧ x.insertmix then insertStep l x else x) := by
        unfold innerLoop
        rw [dif_neg hc, dif_neg hwx]
        simp only [hli]
        rw [dif_neg hv]
      rw [hrw]
      have hst2 : FrameW (width * h0)
          (if op = 0 ∧ x.insertmix then insertStep l x else x).output x.output := by
        split_ifs with hi
        · refine FrameW.setW ?_
          have h1 : l + width ≤ width * h0 := by
            have h2 : l + width = (x.height + 1) * width := by
              rw [hlv]
              ring
            rw [h2]
            exact mul_bound width hlb
          omega
        · exact FrameW.reflW _ _
      exact ⟨hst2, fun st' h => absurd h (by simp)⟩

/-- The inner loop never moves the input cursor backwards (no invariant
needed): each `repeat!` run only reads forward. -/
theorem innerLoop_pos (input : List Nat) (width op : Nat) :
    ∀ st st', innerLoop input width op st = .ok st' → st.pos ≤ st'.pos := by
  intro st
  induction st using innerLoop.induct input width op with
  | case1 x hc =>
      intro st' h
      unfold innerLoop at h
      rw [dif_pos hc] at h
      simp only [Except.ok.injEq] at h
      rw [← h]
  | case2 x hc hwx hh =>
      intro st' h
      unfold innerLoop at h
      rw [dif_neg hc, dif_pos hwx, dif_pos hh] at h
      exact absurd h (by simp)
  | case3 x hc hwx hh hv e hra =>
      intro st' h
      simp only [dite_eq_ite] at hra
      have hrw : innerLoop input width op x = .error e := by
        unfold innerLoop
        rw [dif_neg hc, dif_pos hwx, dif_neg hh, dif_pos hv]
        split
        next e2 heq =>
          rw [heq] at hra
          injection hra with h2
          rw [h2]
        next s3 heq =>
          rw [heq] at hra
          exact Except.noConfusion hra
      rw [hrw] at h
      exact absurd h (by simp)
  | case4 x hc hwx hh hv st3 hra ih =>
      intro st' h
      simp only [dite_eq_ite] at hra
      have hrw : innerLoop input width op x = innerLoop input width op st3 := by
        conv_lhs => unfold innerLoop
        rw [dif_neg hc, dif_pos hwx, dif_neg hh, dif_pos hv]
        split
        next e2 heq =>
          rw [heq] at hra
          exact Except.noConfusion hra
        next s3 heq =>
          rw [heq] at hra
          injection hra with h2
          rw [h2]
      rw [hrw] at h
      have h1 := ih st' h
      have h2 := (repeatA_spec input width op ((x.height - 1) * width)
        (((x.height - 1) * width) + width) le_rfl
        (if op = 0 ∧ x.insertmix then
           insertStep ((x.height - 1) * width) (wrapSt width x)
         else wrapSt width x)).2 st3 hra
      have h3 : x.pos ≤ (if op = 0 ∧ x.insertmix then
          insertStep ((x.height - 1) * width) (wrapSt width x)
        else wrapSt width x).pos := by
        split_ifs <;> exact le_rfl
      have h4 := h2.2.2.2.2.1
      omega
  | case5 x hc hwx hh hv =>
      intro st' h
      have hrw : innerLoop input width op x = .error (.RleDecode,
          if op = 0 ∧ x.insertmix then
            insertStep ((x.height - 1) * width) (wrapSt width x)
          else wrapSt width x) := by
        unfold innerLoop
        rw [dif_neg hc, dif_pos hwx, dif_neg hh, dif_neg hv]
      rw [hrw] at h
      exact absurd h (by simp)
  | case6 x hc hwx hli =>
      intro st' h
      have hrw : innerLoop input width op x = .error (.RleDecode, x) := by
        unfold innerLoop
        rw [dif_neg hc, dif_neg hwx]
        simp only [hli]
      rw [hrw] at h
      exact absurd h (by simp)
  | case7 x hc hwx l hli hv e hra =>
      intro st' h
      simp only [dite_eq_ite] at hra
      have hrw : innerLoop input width op x = .error e := by
        unfold innerLoop
        rw [dif_neg hc, dif_neg hwx]
        simp only [hli]
        rw [dif_pos hv]
        split
        next e2 heq =>
          rw [heq] at hra
          injection hra with h2
          rw [h2]
        next s3 heq =>
          rw [heq] at hra
          exact Except.noConfusion hra
      rw [hrw] at h
      exact absurd h (by simp)
  | case8 x hc hwx l hli hv st3 hra ih =>
      intro st' h
      simp only [dite_eq_ite] at hra
      have hrw : innerLoop input width op x = innerLoop input width op st3 := by
        conv_lhs => unfold innerLoop
        rw [dif_neg hc, dif_neg hwx]
        simp only [hli]
        rw [dif_pos hv]
        split
        next e2 heq =>
          rw [heq] at hra
          exact Except.noConfusion hra
        next s3 heq =>
          rw [heq] at hra
          injection hra with h2
          rw [h2]
      rw [hrw] at h
      have h1 := ih st' h
      have h2 := (repeatA_spec input width op l (l + width) le_rfl
        (if op = 0 ∧ x.insertmix then insertStep l x else x)).2 st3 hra
      have h3 : x.pos ≤ (if op = 0 ∧ x.insertmix then insertStep l x else x).pos := by
        split_ifs <;> exact le_rfl
      have h4 := h2.2.2.2.2.1
      omega
  | case9 x hc hwx l hli hv =>
      intro st' h
      have hrw : innerLoop input width op x = .error (.RleDecode,
          if op = 0 ∧ x.insertmix then insertStep l x else x) := by
        unfold innerLoop
        rw [dif_neg hc, dif_neg hwx]
        simp only [hli]
        rw [dif_neg hv]
      rw [hrw] at h
      exact absurd h (by simp)

/-- The opcode/count extraction from the code byte (src/codec/rle.rs lines
143-166): the three high-nibble ranges.  `0xC..=0xE` subtracts 6 with a
16 offset; `0xF` takes the low nibble as opcode and a 16-bit, 8 or 1
count with no offset; anything lower halves the nibble with a 32 offset
and a 5-bit count. -/
def decodeHead (input : List Nat) (st : St) :
    Except (RdpErrorKind × St) (Nat × Nat × Nat × St) :=
  match readU8 input st with
  | .error e => .error e
  | .ok (code, st1) =>
    if 0xC ≤ code >>> 4 ∧ code >>> 4 ≤ 0xE then
      .ok (code >>> 4 - 6, code &&& 0xf, 16, st1)
    else if code >>> 4 = 0xF then
      if code &&& 0xf < 9 then
        match readU16LE input st1 with
        | .error e => .error e
        | .ok (c, st2) => .ok (code &&& 0xf, c, 0, st2)
      else if code &&& 0xf < 0xb then .ok (code &&& 0xf, 8, 0, st1)
      else .ok (code &&& 0xf, 1, 0, st1)
    else
      .ok (code >>> 4 >>> 1, code &&& 0x1f, 32, st1)

/-- The count extension (src/codec/rle.rs lines 168-175): with a nonzero
offset, a zero count is lengthened by an extra byte plus 1 or the offset,
and a nonzero fill-or-mix count is multiplied by 8. -/
def extendCount (input : List Nat) (op count offset : Nat) (st : St) :
    Except (RdpErrorKind × St) (Nat × St) :=
  if offset ≠ 0 then
    if count = 0 then
      match readU8 input st with
      | .error e => .error e
      | .ok (b, st1) => .ok (b + (if op = 2 ∨ op = 7 then 1 else offset), st1)
    else if op = 2 ∨ op = 7 then .ok (count <<< 3, st)
    else .ok (count, st)
  else .ok (count, st)

/-- The pre-run opcode actions (src/codec/rle.rs lines 177-205): opcode 0
arms `insertmix` when it repeats a background run mid-image, 8 and 3 load
the colour registers, 6/7 load `mix` and shift down to 1/2, 9/0xA fix the
FOM mask; the returned opcode is the transformed one stored into
`lastopcode`. -/
def preAction (input : List Nat) (width op : Nat) (st : St) :
    Except (RdpErrorKind × St) (Nat × St) :=
  if op = 0 then
    .ok (0, { st with insertmix :=
      if st.lastopcode = 0 ∧ ¬(st.x = width ∧ st.prevline = none) then true
      else st.insertmix })
  else if op = 8 then
    match readU16LE input st with
    | .error e => .error e
    | .ok (c1, st1) =>
      match readU16LE input st1 with
      | .error e => .error e
      | .ok (c2, st2) => .ok (8, { st2 with colour1 := c1, colour2 := c2 })
  else if op = 3 then
    match readU16LE input st with
    | .error e => .error e
    | .ok (c2, st1) => .ok (3, { st1 with colour2 := c2 })
  else if op = 6 ∨ op = 7 then
    match readU16LE input st with
    | .error e => .error e
    | .ok (m, st1) => .ok (op - 5, { st1 with mix := m })
  else if op = 9 then .ok (2, { st with mask := 3, fomMask := 3 })
  else if op = 10 then .ok (2, { st with mask := 5, fomMask := 5 })
  else .ok (op, st)

/-- One outer-loop decode (src/codec/rle.rs lines 142-207): reset the
per-iteration FOM mask, read and split the code byte, extend the count,
run the pre-actions, then store `lastopcode` and reset `mixmask` and load
the run `count`. -/
def decodeStep (input : List Nat) (width : Nat) (st0 : St) :
    Except (RdpErrorKind × St) (Nat × St) :=
  match decodeHead input { st0 with fomMask := 0 } with
  | .error e => .error e
  | .ok (op1, count1, offset, st2) =>
    match extendCount input op1 count1 offset st2 with
    | .error e => .error e
    | .ok (count2, st3) =>
      match preAction input width op1 st3 with
      | .error e => .error e
      | .ok (opF, st6) =>
        .ok (opF, { st6 with lastopcode := opF, mixmask := 0, count := count2 })

theorem decodeHead_ok (input : List Nat) (st : St) (op c off : Nat) (st1 : St)
    (h : decodeHead input st = .ok (op, c, off, st1)) :
    st1.output = st.output ∧ st1.x = st.x ∧ st1.height = st.height ∧
    st1.line = st.line ∧ st1.prevline = st.prevline ∧
    st1.insertmix = st.insertmix ∧ st1.lastopcode = st.lastopcode ∧
    st.pos + 1 ≤ st1.pos := by
  unfold decodeHead at h
  cases h8 : readU8 input st with
  | error e => rw [h8] at h; exact absurd h (by simp)
  | ok w =>
      obtain ⟨code, stA⟩ := w
      rw [h8] at h
      obtain ⟨hA, hAp⟩ := readU8_spec input st code stA h8
      subst hA
      dsimp only at h
      split_ifs at h with h1 h2 h3 h4
      · simp only [Except.ok.injEq, Prod.mk.injEq] at h
        rw [← h.2.2.2]
        exact ⟨rfl, rfl, rfl, rfl, rfl, rfl, rfl, le_rfl⟩
      · cases h16 : readU16LE input { st with pos := st.pos + 1 } with
        | error e => rw [h16] at h; exact absurd h (by simp)
        | ok w2 =>
            obtain ⟨v, stB⟩ := w2
            rw [h16] at h
            have hB := readU16LE_spec input _ v stB h16
            subst hB
            simp only [Except.ok.injEq, Prod.mk.injEq] at h
            rw [← h.2.2.2]
            exact ⟨rfl, rfl, rfl, rfl, rfl, rfl, rfl, Nat.le_add_right _ 2⟩
      · simp only [Except.ok.injEq, Prod.mk.injEq] at h
        rw [← h.2.2.2]
        exact ⟨rfl, rfl, rfl, rfl, rfl, rfl, rfl, le_rfl⟩
      · simp only [Except.ok.injEq, Prod.mk.injEq] at h
        rw [← h.2.2.2]
        exact ⟨rfl, rfl, rfl, rfl, rfl, rfl, rfl, le_rfl⟩
      · simp only [Except.ok.injEq, Prod.mk.injEq] at h
        rw [← h.2.2.2]
        exact ⟨rfl, rfl, rfl, rfl, rfl, rfl, rfl, le_rfl⟩

theorem decodeHead_err (input : List Nat) (st : St) (e : RdpErrorKind × St)
    (h : decodeHead input st = .error e) : e.2.output = st.output := by
  unfold decodeHead at h
  cases h8 : readU8 input st with
  | error e0 =>
      rw [h8] at h
      simp only [Except.error.injEq] at h
      rw [← h, readU8_err input st e0 h8]
  | ok w =>
      obtain ⟨code, stA⟩ := w
      rw [h8] at h
      obtain ⟨hA, hAp⟩ := readU8_spec input st code stA h8
      subst hA
      dsimp only at h
      split_ifs at h with h1 h2 h3 h4
      cases h16 : readU16LE input { st with pos := st.pos + 1 } with
      | error e0 =>
          rw [h16] at h
          simp only [Except.error.injEq] at h
          rw [← h]
          rcases readU16LE_err input _ e0 h16 with h5 | h5 <;> rw [h5]
      | ok w2 => rw [h16] at h; exact absurd h (by simp)

theorem extendCount_ok (input : List Nat) (op c off : Nat) (st : St)
    (c2 : Nat) (st1 : St) (h : extendCount input op c off st = .ok (c2, st1)) :
    st1.output = st.output ∧ st1.x = st.x ∧ st1.height = st.height ∧
    st1.line = st.line ∧ st1.prevline = st.prevline ∧
    st1.insertmix = st.insertmix ∧ st1.lastopcode = st.lastopcode ∧
    st.pos ≤ st1.pos := by
  unfold extendCount at h
  by_cases h1 : off ≠ 0
  · rw [if_pos h1] at h
    by_cases h2 : c = 0
    · rw [if_pos h2] at h
      cases h8 : readU8 input st with
      | error e => rw [h8] at h; exact absurd h (by simp)
      | ok w =>
          obtain ⟨b, stA⟩ := w
          rw [h8] at h
          obtain ⟨hA, _⟩ := readU8_spec input st b stA h8
          subst hA
          simp only [Except.ok.injEq, Prod.mk.injEq] at h
          rw [← h.2]
          exact ⟨rfl, rfl, rfl, rfl, rfl, rfl, rfl, Nat.le_succ _⟩
    · rw [if_neg h2] at h
      by_cases h3 : op = 2 ∨ op = 7
      · rw [if_pos h3] at h
        simp only [Except.ok.injEq, Prod.mk.injEq] at h
        rw [← h.2]
        exact ⟨rfl, rfl, rfl, rfl, rfl, rfl, rfl, le_rfl⟩
      · rw [if_neg h3] at h
        simp only [Except.ok.injEq, Prod.mk.injEq] at h
        rw [← h.2]
        exact ⟨rfl, rfl, rfl, rfl, rfl, rfl, rfl, le_rfl⟩
  · rw [if_neg h1] at h
    simp only [Except.ok.injEq, Prod.mk.injEq] at h
    rw [← h.2]
    exact ⟨rfl, rfl, rfl, rfl, rfl, rfl, rfl, le_rfl⟩

theorem extendCount_err (input : List Nat) (op c off : Nat) (st : St)
    (e : RdpErrorKind × St) (h : extendCount input op c off st = .error e) :
    e.2.output = st.output := by
  unfold extendCount at h
  by_cases h1 : off ≠ 0
  · rw [if_pos h1] at h
    by_cases h2 : c = 0
    · rw [if_pos h2] at h
      cases h8 : readU8 input st with
      | error e0 =>
          rw [h8] at h
          simp only [Except.error.injEq] at h
          rw [← h, readU8_err input st e0 h8]
      | ok w => rw [h8] at h; exact absurd h (by simp)
    · rw [if_neg h2] at h
      by_cases h3 : op = 2 ∨ op = 7
      · rw [if_pos h3] at h; exact absurd h (by simp)
      · rw [if_neg h3] at h; exact absurd h (by simp)
  · rw [if_neg h1] at h
    exact absurd h (by simp)

theorem preAction_ok (input : List Nat) (width op : Nat) (st : St)
    (opF : Nat) (st1 : St) (h : preAction input width op st = .ok (opF, st1)) :
    st1.output = st.output ∧ st1.x = st.x ∧ st1.height = st.height ∧
    st1.line = st.line ∧ st1.prevline = st.prevline ∧
    (st1.insertmix = st.insertmix ∨
      (st1.insertmix = true ∧ ¬(st.x = width ∧ st.prevline = none))) ∧
    st.pos ≤ st1.pos := by
  unfold preAction at h
  by_cases c0 : op = 0
  · rw [if_pos c0] at h
    simp only [Except.ok.injEq, Prod.mk.injEq] at h
    rw [← h.2]
    refine ⟨rfl, rfl, rfl, rfl, rfl, ?_, le_rfl⟩
    by_cases hm : st.lastopcode = 0 ∧ ¬(st.x = width ∧ st.prevline = none)
    · refine Or.inr ⟨?_, hm.2⟩
      show (if st.lastopcode = 0 ∧ ¬(st.x = width ∧ st.prevline = none) then true
            else st.insertmix) = true
      rw [if_pos hm]
    · refine Or.inl ?_
      show (if st.lastopcode = 0 ∧ ¬(st.x = width ∧ st.prevline = none) then true
            else st.insertmix) = st.insertmix
      rw [if_neg hm]
  · rw [if_neg c0] at h
    by_cases c8 : op = 8
    · rw [if_pos c8] at h
      cases h16 : readU16LE input st with
      | error e => rw [h16] at h; exact absurd h (by simp)
      | ok w =>
          obtain ⟨cA, stA⟩ := w
          rw [h16] at h
          have hA := readU16LE_spec input st cA stA h16
          subst hA
          dsimp only at h
          cases h17 : readU16LE input { st with pos := st.pos + 2 } with
          | error e => rw [h17] at h; exact absurd h (by simp)
          | ok w2 =>
              obtain ⟨cB, stB⟩ := w2
              rw [h17] at h
              have hB := readU16LE_spec input _ cB stB h17
              subst hB
              simp only [Except.ok.injEq, Prod.mk.injEq] at h
              rw [← h.2]
              exact ⟨rfl, rfl, rfl, rfl, rfl, Or.inl rfl, Nat.le_add_right _ 4⟩
    · rw [if_neg c8] at h
      by_cases c3 : op = 3
      · rw [if_pos c3] at h
        cases h16 : readU16LE input st with
        | error e => rw [h16] at h; exact absurd h (by simp)
        | ok w =>
            obtain ⟨cA, stA⟩ := w
            rw [h16] at h
            have hA := readU16LE_spec input st cA stA h16
            subst hA
            simp only [Except.ok.injEq, Prod.mk.injEq] at h
            rw [← h.2]
            exact ⟨rfl, rfl, rfl, rfl, rfl, Or.inl rfl, Nat.le_add_right _ 2⟩
      · rw [if_neg c3] at h
        by_cases c67 : op = 6 ∨ op = 7
        · rw [if_pos c67] at h
          cases h16 : readU16LE input st with
          | error e => rw [h16] at h; exact absurd h (by simp)
          | ok w =>
              obtain ⟨m, stA⟩ := w
              rw [h16] at h
              have hA := readU16LE_spec input st m stA h16
              subst hA
              simp only [Except.ok.injEq, Prod.mk.injEq] at h
              rw [← h.2]
              exact ⟨rfl, rfl, rfl, rfl, rfl, Or.inl rfl, Nat.le_add_right _ 2⟩
        · rw [if_neg c67] at h
          by_cases c9 : op = 9
          · rw [if_pos c9] at h
            simp only [Except.ok.injEq, Prod.mk.injEq] at h
            rw [← h.2]
            exact ⟨rfl, rfl, rfl, rfl, rfl, Or.inl rfl, le_rfl⟩
          · rw [if_neg c9] at h
            by_cases cA : op = 10
            · rw [if_pos cA] at h
              simp only [Except.ok.injEq, Prod.mk.injEq] at h
              rw [← h.2]
              exact ⟨rfl, rfl, rfl, rfl, rfl, Or.inl rfl, le_rfl⟩
            · rw [if_neg cA] at h
              simp only [Except.ok.injEq, Prod.mk.injEq] at h
              rw [← h.2]
              exact ⟨rfl, rfl, rfl, rfl, rfl, Or.inl rfl, le_rfl⟩

theorem preAction_err (input : List Nat) (width op : Nat) (st : St)
    (e : RdpErrorKind × St) (h : preAction input width op st = .error e) :
    e.2.output = st.output := by
  unfold preAction at h
  by_cases c0 : op = 0
  · rw [if_pos c0] at h; exact absurd h (by simp)
  · rw [if_neg c0] at h
    by_cases c8 : op = 8
    · rw [if_pos c8] at h
      cases h16 : readU16LE input st with
      | error e0 =>
          rw [h16] at h
          simp only [Except.error.injEq] at h
          rw [← h]
          rcases readU16LE_err input st e0 h16 with h7 | h7 <;> rw [h7]
      | ok w =>
          obtain ⟨cA, stA⟩ := w
          rw [h16] at h
          have hA := readU16LE_spec input st cA stA h16
          subst hA
          dsimp only at h
          cases h17 : readU16LE input { st with pos := st.pos + 2 } with
          | error e0 =>
              rw [h17] at h
              simp only [Except.error.injEq] at h
              rw [← h]
              rcases readU16LE_err input _ e0 h17 with h7 | h7 <;> rw [h7]
          | ok w2 => rw [h17] at h; exact absurd h (by simp)
    · rw [if_neg c8] at h
      by_cases c3 : op = 3
      · rw [if_pos c3] at h
        cases h16 : readU16LE input st with
        | error e0 =>
            rw [h16] at h
            simp only [Except.error.injEq] at h
            rw [← h]
            rcases readU16LE_err input st e0 h16 with h7 | h7 <;> rw [h7]
        | ok w => rw [h16] at h; exact absurd h (by simp)
      · rw [if_neg c3] at h
        by_cases c67 : op = 6 ∨ op = 7
        · rw [if_pos c67] at h
          cases h16 : readU16LE input st with
          | error e0 =>
              rw [h16] at h
              simp only [Except.error.injEq] at h
              rw [← h]
              rcases readU16LE_err input st e0 h16 with h7 | h7 <;> rw [h7]
          | ok w => rw [h16] at h; exact absurd h (by simp)
        · rw [if_neg c67] at h
          by_cases c9 : op = 9
          · rw [if_pos c9] at h; exact absurd h (by simp)
          · rw [if_neg c9] at h
            by_cases cB : op = 10
            · rw [if_pos cB] at h; exact absurd h (by simp)
            · rw [if_neg cB] at h; exact absurd h (by simp)

theorem decodeStep_ok (input : List Nat) (width : Nat) (st0 : St)
    (op : Nat) (st1 : St) (h : decodeStep input width st0 = .ok (op, st1)) :
    st1.output = st0.output ∧ st1.x = st0.x ∧ st1.height = st0.height ∧
    st1.line = st0.line ∧ st1.prevline = st0.prevline ∧
    (st1.insertmix = st0.insertmix ∨
      (st1.insertmix = true ∧ ¬(st0.x = width ∧ st0.prevline = none))) ∧
    st0.pos + 1 ≤ st1.pos := by
  unfold decodeStep at h
  cases hH : decodeHead input { st0 with fomMask := 0 } with
  | error e => rw [hH] at h; exact absurd h (by simp)
  | ok w =>
      obtain ⟨op1, c1, off, stA⟩ := w
      rw [hH] at h
      dsimp only at h
      obtain ⟨a1, a2, a3, a4, a5, a6, a7, a8⟩ := decodeHead_ok input _ op1 c1 off stA hH
      cases hE : extendCount input op1 c1 off stA with
      | error e => rw [hE] at h; exact absurd h (by simp)
      | ok w2 =>
          obtain ⟨cX, stB⟩ := w2
          rw [hE] at h
          dsimp only at h
          obtain ⟨b1, b2, b3, b4, b5, b6, b7, b8⟩ := extendCount_ok input op1 c1 off stA cX stB hE
          cases hP : preAction input width op1 stB with
          | error e => rw [hP] at h; exact absurd h (by simp)
          | ok w3 =>
              obtain ⟨opF, stC⟩ := w3
              rw [hP] at h
              simp only [Except.ok.injEq, Prod.mk.injEq] at h
              obtain ⟨c1', c2', c3', c4', c5', c6', c7'⟩ := preAction_ok input width op1 stB opF stC hP
              rw [← h.2]
              refine ⟨by rw [c1', b1, a1], by rw [c2', b2, a2], by rw [c3', b3, a3],
                by rw [c4', b4, a4], by rw [c5', b5, a5], ?_, by
                  show st0.pos + 1 ≤ stC.pos
                  have : ({ st0 with fomMask := 0 } : St).pos = st0.pos := rfl
                  omega⟩
              rcases c6' with hc6 | hc6
              · exact Or.inl (by rw [hc6, b6, a6])
              · refine Or.inr ⟨hc6.1, ?_⟩
                rw [b2, a2, b5, a5] at hc6
                exact hc6.2

theorem decodeStep_err (input : List Nat) (width : Nat) (st0 : St)
    (e : RdpErrorKind × St) (h : decodeStep input width st0 = .error e) :
    e.2.output = st0.output := by
  unfold decodeStep at h
  cases hH : decodeHead input { st0 with fomMask := 0 } with
  | error e0 =>
      rw [hH] at h
      simp only [Except.error.injEq] at h
      rw [← h]
      exact decodeHead_err input { st0 with fomMask := 0 } e0 hH
  | ok w =>
      obtain ⟨op1, c1, off, stA⟩ := w
      rw [hH] at h
      dsimp only at h
      obtain ⟨a1, _⟩ := decodeHead_ok input _ op1 c1 off stA hH
      cases hE : extendCount input op1 c1 off stA with
      | error e0 =>
          rw [hE] at h
          simp only [Except.error.injEq] at h
          rw [← h, extendCount_err input op1 c1 off stA e0 hE, a1]
      | ok w2 =>
          obtain ⟨cX, stB⟩ := w2
          rw [hE] at h
          dsimp only at h
          obtain ⟨b1, _⟩ := extendCount_ok input op1 c1 off stA cX stB hE
          cases hP : preAction input width op1 stB with
          | error e0 =>
              rw [hP] at h
              simp only [Except.error.injEq] at h
              rw [← h, preAction_err input width op1 stB e0 hP, b1, a1]
          | ok w3 => rw [hP] at h; exact absurd h (by simp)

/-- The outer `while position < input.len()` loop of `rle_16_decompress`
(src/codec/rle.rs lines 141-310): decode one opcode, run its pixel loop,
repeat. -/
def rleLoop (input : List Nat) (width : Nat) (st : St) :
    Except (RdpErrorKind × St) St :=
  if hp : st.pos < input.length then
    match hd : decodeStep input width st with
    | .error e => .error e
    | .ok (op, st1) =>
      match hi : innerLoop input width op st1 with
      | .error e => .error e
      | .ok st2 => rleLoop input width st2
  else .ok st
termination_by input.length - st.pos
decreasing_by
  have h1 := (decodeStep_ok input width st op st1 hd).2.2.2.2.2.2
  have h2 := innerLoop_pos input width op st1 st2 hi
  omega

/-- `rle_16_decompress` (src/codec/rle.rs lines 127-313): the decoder
state starts at the right edge of a nonexistent line below the image
(`x = width`, no line pointers), with `mix = 0xFFFF` and `lastopcode =
0xFF`; the result carries the final output buffer. -/
def rle_16_decompress (input : List Nat) (width height : Nat)
    (output : List Nat) : Except (RdpErrorKind × St) St :=
  rleLoop input width
    { pos := 0
      output := output
      x := width
      height := height
      prevline := none
      line := none
      colour1 := 0
      colour2 := 0
      mix := 0xffff
      mask := 0
      mixmask := 0
      fomMask := 0
      bicolour := false
      insertmix := false
      lastopcode := 0xFF
      count := 0 }

/-- The outer-loop invariant: the line invariant plus, for a degenerate
zero width, that the cursor still sits at its initial position (so a
background run can never arm `insertmix`). -/
def OutInv (width h0 : Nat) (st : St) : Prop :=
  InvL width h0 st ∧ (width = 0 → st.x = width ∧ st.prevline = none)

theorem rleLoop_spec (input : List Nat) (width h0 : Nat) :
    ∀ st, OutInv width h0 st →
      FrameW (width * h0) (stOf (rleLoop input width st)).output st.output := by
  intro st
  induction st using rleLoop.induct input width with
  | case1 x hp e hd =>
      intro hInv
      have hrw : rleLoop input width x = .error e := by
        unfold rleLoop
        rw [dif_pos hp]
        split
        next e2 heq =>
          rw [heq] at hd
          injection hd with h2
          rw [h2]
        next o s heq =>
          rw [heq] at hd
          exact Except.noConfusion hd
      rw [hrw]
      have := decodeStep_err input width x e hd
      show FrameW (width * h0) e.2.output x.output
      rw [this]
      exact FrameW.reflW _ _
  | case2 x hp op st1 hd e hi =>
      intro hInv
      obtain ⟨d1, d2, d3, d4, d5, d6, d7⟩ := decodeStep_ok input width x op st1 hd
      have hInv1 : InvL width h0 st1 := by
        refine ⟨by rw [d3]; exact hInv.1.1, ?_, ?_, ?_⟩
        · intro l hl
          rw [d4] at hl
          rw [d3]
          exact hInv.1.2.1 l hl
        · intro e2 he
          rw [d5] at he
          rw [d3]
          exact hInv.1.2.2.1 e2 he
        · intro hw0
          rcases d6 with h6 | h6
          · rw [h6]
            exact hInv.1.2.2.2 hw0
          · exact absurd ⟨(hInv.2 hw0).1, (hInv.2 hw0).2⟩ h6.2
      have hrw : rleLoop input width x = .error e := by
        unfold rleLoop
        rw [dif_pos hp]
        split
        next e2 heq =>
          rw [heq] at hd
          exact Except.noConfusion hd
        next o s heq =>
          rw [heq] at hd
          injection hd with hd2
          injection hd2 with hdo hds
          subst hdo
          subst hds
          split
          next e2 heq2 =>
            rw [heq2] at hi
            injection hi with h2
            rw [h2]
          next s2 heq2 =>
            rw [heq2] at hi
            exact Except.noConfusion hi
      rw [hrw]
      have hfr2 : FrameW (width * h0) e.2.output st1.output := by
        have := (innerLoop_spec input width op h0 st1 hInv1).1
        rw [hi] at this
        exact this
      have hfr1 : FrameW (width * h0) st1.output x.output := by
        rw [d1]
        exact FrameW.reflW _ _
      exact hfr2.transW hfr1
  | case3 x hp op st1 hd st2 hi ih =>
      intro hInv
      obtain ⟨d1, d2, d3, d4, d5, d6, d7⟩ := decodeStep_ok input width x op st1 hd
      have hInv1 : InvL width h0 st1 := by
        refine ⟨by rw [d3]; exact hInv.1.1, ?_, ?_, ?_⟩
        · intro l hl
          rw [d4] at hl
          rw [d3]
          exact hInv.1.2.1 l hl
        · intro e he
          rw [d5] at he
          rw [d3]
          exact hInv.1.2.2.1 e he
        · intro hw0
          rcases d6 with h6 | h6
          · rw [h6]
            exact hInv.1.2.2.2 hw0
          · exact absurd ⟨(hInv.2 hw0).1, (hInv.2 hw0).2⟩ h6.2
      have hsp := innerLoop_spec input width op h0 st1 hInv1
      obtain ⟨i1, hInv2, i3⟩ := hsp.2 st2 hi
      have hInv2' : OutInv width h0 st2 := by
        refine ⟨hInv2, fun hw0 => ?_⟩
        rw [(i3 hw0).1]
        exact ⟨by rw [d2]; exact (hInv.2 hw0).1, by rw [d5]; exact (hInv.2 hw0).2⟩
      have hrw : rleLoop input width x = rleLoop input width st2 := by
        conv_lhs => unfold rleLoop
        rw [dif_pos hp]
        split
        next e heq =>
          rw [heq] at hd
          exact Except.noConfusion hd
        next o s heq =>
          rw [heq] at hd
          injection hd with hd2
          injection hd2 with hdo hds
          subst hdo
          subst hds
          split
          next e heq2 =>
            rw [heq2] at hi
            exact Except.noConfusion hi
          next s2 heq2 =>
            rw [heq2] at hi
            injection hi with hi2
            rw [hi2]
      rw [hrw]
      have hfr2 : FrameW (width * h0) st2.output st1.output := by
        have := hsp.1
        rw [hi] at this
        exact this
      have hfr1 : FrameW (width * h0) st1.output x.output := by
        rw [d1]
        exact FrameW.reflW _ _
      exact ((ih hInv2').transW hfr2).transW hfr1
  | case4 x hp =>
      intro hInv
      have hrw : rleLoop input width x = .ok x := by
        unfold rleLoop
        rw [dif_neg hp]
      rw [hrw]
      exact FrameW.reflW _ _

end Rle16

/-- Claim C2: for every input byte list, width, height and output buffer,
`rle_16_decompress` never writes outside the `width*height` prefix of the
output — the buffer length is preserved and every position at or beyond
`width*height` is untouched, whether it returns `Ok` or an error — and
when a run must wrap past the bottom of the image (`width ≤ x` with
`height` exhausted) while the run count is still positive, the inner loop
fails with error kind `RleDecode`. -/
theorem claim_C2_rle16_no_overrun (input : List Nat) (width height : Nat)
    (output : List Nat) :
    ((Rle16.stOf (Rle16.rle_16_decompress input width height output)).output.length =
       output.length ∧
     ∀ i, width * height ≤ i →
       (Rle16.stOf (Rle16.rle_16_decompress input width height output)).output.get? i =
         output.get? i) ∧
    (∀ op st, st.count ≠ 0 → width ≤ st.x → st.height = 0 →
      Rle16.innerLoop input width op st = .error (.RleDecode, st)) := by
  constructor
  · have h := Rle16.rleLoop_spec input width height
      { pos := 0
        output := output
        x := width
        height := height
        prevline := none
        line := none
        colour1 := 0
        colour2 := 0
        mix := 0xffff
        mask := 0
        mixmask := 0
        fomMask := 0
        bicolour := false
        insertmix := false
        lastopcode := 0xFF
        count := 0 }
      ⟨⟨le_rfl, fun l hl => Option.noConfusion hl,
        fun e he => Option.noConfusion he, fun _ => rfl⟩,
       fun _ => ⟨rfl, rfl⟩⟩
    exact ⟨h.1, h.2⟩
  · intro op st hc hwx hh
    unfold Rle16.innerLoop
    rw [dif_neg hc, dif_pos hwx, dif_pos hh]

/-- A concrete run of the C2 theorem: an empty input leaves the buffer
untouched beyond the image, and a pending count with exhausted height
fails with `RleDecode`. -/
theorem claim_C2_witness :
    (Rle16.stOf (Rle16.rle_16_decompress [] 1 1 [5, 7])).output.get? 1 =
      [5, 7].get? 1 ∧
    Rle16.innerLoop [] 1 0
      { pos := 0
        output := [5, 7]
        x := 1
        height := 0
        prevline := none
        line := none
        colour1 := 0
        colour2 := 0
        mix := 0xffff
        mask := 0
        mixmask := 0
        fomMask := 0
        bicolour := false
        insertmix := false
        lastopcode := 0xFF
        count := 1 } =
      .error (.RleDecode,
        { pos := 0
          output := [5, 7]
          x := 1
          height := 0
          prevline := none
          line := none
          colour1 := 0
          colour2 := 0
          mix := 0xffff
          mask := 0
          mixmask := 0
          fomMask := 0
          bicolour := false
          insertmix := false
          lastopcode := 0xFF
          count := 1 }) :=
  ⟨(claim_C2_rle16_no_overrun [] 1 1 [5, 7]).1.2 1 (by decide),
   (claim_C2_rle16_no_overrun [] 1 1 [5, 7]).2 0 _ (by decide) (by decide)
     (by decide)⟩

namespace Rle16

/-- A background-run write with no previous line emits 0 (src/codec/rle.rs
line 238). -/
theorem innerStep_bg_none (input : List Nat) (l : Nat) (st : St)
    (hp : st.prevline = none) :
    innerStep input 0 l st = .ok { st with output := st.output.set (l + st.x) 0 } := by
  simp only [innerStep, hp]

/-- A background-run write with a previous line copies the previous line's
pixel at the same column (src/codec/rle.rs line 236). -/
theorem innerStep_bg_some (input : List Nat) (l : Nat) (st : St) (e : Nat)
    (hp : st.prevline = some e) :
    innerStep input 0 l st =
      .ok { st with output := st.output.set (l + st.x) (st.output.getD (e + st.x) 0) } := by
  simp only [innerStep, hp]

/-- The armed `insertmix` head write with no previous line stores `mix`
itself (src/codec/rle.rs line 229, `else` side). -/
theorem insertStep_none (l : Nat) (st : St) (hp : st.prevline = none) :
    (insertStep l st).output = st.output.set (l + st.x) st.mix := by
  unfold insertStep
  rw [hp]

/-- The armed `insertmix` head write with a previous line stores
`prev[x] XOR mix` (src/codec/rle.rs line 229, `Some` side). -/
theorem insertStep_some (l : Nat) (st : St) (e : Nat) (hp : st.prevline = some e) :
    (insertStep l st).output =
      st.output.set (l + st.x) (st.output.getD (e + st.x) 0 ^^^ st.mix) := by
  unfold insertStep
  rw [hp]

/-- Decoding a background opcode right after another background run arms
the one-shot `insertmix` flag (src/codec/rle.rs lines 178-182): a code
byte with high nibble 0 or 1 decodes to opcode 0 with a 5-bit count, and
with `lastopcode = 0` away from the initial corner the flag is set. -/
theorem decodeStep_bg_insertmix (input : List Nat) (width : Nat) (st : St)
    (code : Nat) (hg : input.get? st.pos = some code)
    (h4 : code >>> 4 ≤ 1) (h5 : code &&& 0x1f ≠ 0)
    (hlast : st.lastopcode = 0) (hnx : ¬(st.x = width ∧ st.prevline = none)) :
    ∃ st1, decodeStep input width st = .ok (0, st1) ∧ st1.insertmix = true ∧
      st1.count = code &&& 0x1f ∧ st1.pos = st.pos + 1 ∧
      st1.output = st.output := by
  have h0 : code >>> 4 >>> 1 = 0 := by
    have h1 : code >>> 4 >>> 1 = code >>> 4 / 2 ^ 1 := Nat.shiftRight_eq_div_pow _ _
    omega
  have hH : decodeHead input { st with fomMask := 0 } =
      .ok (0, code &&& 0x1f, 32, { st with fomMask := 0, pos := st.pos + 1 }) := by
    unfold decodeHead readU8
    have hg' : input.get? ({ st with fomMask := 0 } : St).pos = some code := hg
    simp only [hg']
    rw [if_neg (by omega), if_neg (by omega), h0]
  have hE : extendCount input 0 (code &&& 0x1f) 32
      { st with fomMask := 0, pos := st.pos + 1 } =
      .ok (code &&& 0x1f, { st with fomMask := 0, pos := st.pos + 1 }) := by
    unfold extendCount
    rw [if_pos (by omega), if_neg h5, if_neg (by omega)]
  have hP : preAction input width 0 { st with fomMask := 0, pos := st.pos + 1 } =
      .ok (0, { st with fomMask := 0, pos := st.pos + 1, insertmix := true }) := by
    unfold preAction
    rw [if_pos rfl]
    have hc : ({ st with fomMask := 0, pos := st.pos + 1 } : St).lastopcode = 0 ∧
        ¬(({ st with fomMask := 0, pos := st.pos + 1 } : St).x = width ∧
          ({ st with fomMask := 0, pos := st.pos + 1 } : St).prevline = none) :=
      ⟨hlast, hnx⟩
    rw [if_pos hc]
  refine ⟨{ st with
            fomMask := 0
            pos := st.pos + 1
            insertmix := true
            lastopcode := 0
            mixmask := 0
            count := code &&& 0x1f }, ?_, rfl, rfl, rfl, rfl⟩
  unfold decodeStep
  rw [hH]
  dsimp only
  rw [hE]
  dsimp only
  rw [hP]

end Rle16

/-- Claim C6: in `rle_16_decompress`, a background run (opcode 0) writes 0
at each position when there is no previous line and copies the previous
line's pixel at the same column when there is one; its armed first-pixel
write is `mix` itself with no previous line and `prev[x] XOR mix` with
one; and a background opcode decoded immediately after another background
run (`lastopcode = 0`, away from the initial corner) arms that one-shot
`insertmix` flag. -/
theorem claim_C6_background_run :
    (∀ input l (st : Rle16.St), st.prevline = none →
      Rle16.innerStep input 0 l st =
        .ok { st with output := st.output.set (l + st.x) 0 }) ∧
    (∀ input l (st : Rle16.St) e, st.prevline = some e →
      Rle16.innerStep input 0 l st =
        .ok { st with output :=
          st.output.set (l + st.x) (st.output.getD (e + st.x) 0) }) ∧
    (∀ l (st : Rle16.St), st.prevline = none →
      (Rle16.insertStep l st).output = st.output.set (l + st.x) st.mix) ∧
    (∀ l (st : Rle16.St) e, st.prevline = some e →
      (Rle16.insertStep l st).output =
        st.output.set (l + st.x) (st.output.getD (e + st.x) 0 ^^^ st.mix)) ∧
    (∀ input width (st : Rle16.St) code, input.get? st.pos = some code →
      code >>> 4 ≤ 1 → code &&& 0x1f ≠ 0 →
      st.lastopcode = 0 → ¬(st.x = width ∧ st.prevline = none) →
      ∃ st1, Rle16.decodeStep input width st = .ok (0, st1) ∧
        st1.insertmix = true ∧ st1.count = code &&& 0x1f ∧
        st1.pos = st.pos + 1 ∧ st1.output = st.output) :=
  ⟨fun input l st hp => Rle16.innerStep_bg_none input l st hp,
   fun input l st e hp => Rle16.innerStep_bg_some input l st e hp,
   fun l st hp => Rle16.insertStep_none l st hp,
   fun l st e hp => Rle16.insertStep_some l st e hp,
   fun input width st code hg h4 h5 hlast hnx =>
     Rle16.decodeStep_bg_insertmix input width st code hg h4 h5 hlast hnx⟩

/-- A concrete run of the C6 theorem: a background write with no previous
line, an armed head write over a previous line, and the decode of a
repeated background opcode arming `insertmix`. -/
theorem claim_C6_witness :
    (Rle16.innerStep [] 0 0
       { pos := 0
         output := [7]
         x := 0
         height := 1
         prevline := none
         line := some 0
         colour1 := 0
         colour2 := 0
         mix := 0xffff
         mask := 0
         mixmask := 0
         fomMask := 0
         bicolour := false
         insertmix := false
         lastopcode := 0
         count := 1 } =
      .ok { pos := 0
            output := List.set [7] 0 0
            x := 0
            height := 1
            prevline := none
            line := some 0
            colour1 := 0
            colour2 := 0
            mix := 0xffff
            mask := 0
            mixmask := 0
            fomMask := 0
            bicolour := false
            insertmix := false
            lastopcode := 0
            count := 1 }) ∧
    ((Rle16.insertStep 2
       { pos := 0
         output := [10, 20, 30, 40]
         x := 0
         height := 1
         prevline := some 0
         line := some 2
         colour1 := 0
         colour2 := 0
         mix := 0xffff
         mask := 0
         mixmask := 0
         fomMask := 0
         bicolour := false
         insertmix := true
         lastopcode := 0
         count := 1 }).output =
      List.set [10, 20, 30, 40] 2 (10 ^^^ 0xffff)) ∧
    (∃ st1, Rle16.decodeStep [3] 9
       { pos := 0
         output := [0, 0]
         x := 0
         height := 1
         prevline := some 0
         line := some 0
         colour1 := 0
         colour2 := 0
         mix := 0xffff
         mask := 0
         mixmask := 0
         fomMask := 0
         bicolour := false
         insertmix := false
         lastopcode := 0
         count := 0 } = .ok (0, st1) ∧
      st1.insertmix = true ∧ st1.count = 3 &&& 0x1f ∧ st1.pos = 0 + 1 ∧
      st1.output = [0, 0]) := by
  refine ⟨claim_C6_background_run.1 [] 0 _ rfl, ?_, ?_⟩
  · have h := claim_C6_background_run.2.2.2.1 2
      { pos := 0
        output := [10, 20, 30, 40]
        x := 0
        height := 1
        prevline := some 0
        line := some 2
        colour1 := 0
        colour2 := 0
        mix := 0xffff
        mask := 0
        mixmask := 0
        fomMask := 0
        bicolour := false
        insertmix := true
        lastopcode := 0
        count := 1 } 0 rfl
    rw [h]
    rfl
  · exact claim_C6_background_run.2.2.2.2 [3] 9 _ 3 rfl (by decide) (by decide)
      rfl (by decide)

namespace Per

/-- Modelled from the spec: `read_choice()` — one byte (spec section 4.1). -/
def read_choice : List Nat → Option (Nat × List Nat)
  | b :: r => some (b, r)
  | [] => none

/-- Modelled from the spec: the reading inverse of `write_length` — one
byte if its high bit is clear, else that byte (masked) and a second as a
big-endian 15-bit length. -/
def read_length : List Nat → Option (Nat × List Nat)
  | b0 :: r =>
    if b0 &&& 0x80 ≠ 0 then
      match r with
      | b1 :: r2 => some (((b0 &&& 0x7f) <<< 8) ||| b1, r2)
      | [] => none
    else some (b0, r)
  | [] => none

/-- Modelled from the spec: the reading inverse of
`write_object_identifier` — the six encoded bytes must match the fixed
encoding of the expected OID. -/
def read_object_identifier (oid : List Nat) : List Nat → Option (List Nat)
  | l :: a :: b :: c :: d :: e :: r =>
    if [l, a, b, c, d, e] = write_object_identifier oid then some r else none
  | _ => none

/-- Modelled from the spec: `read_integer_16(expected)` — two big-endian
bytes, checked against `expected`, failing on mismatch. -/
def read_integer_16 (expected : Nat) : List Nat → Option (Nat × List Nat)
  | b0 :: b1 :: r =>
    if b0 * 256 + b1 = expected then some (b0 * 256 + b1, r) else none
  | _ => none

/-- Modelled from the spec: `read_integer` — a PER length then that many
big-endian value bytes. -/
def read_integer (bytes : List Nat) : Option (Nat × List Nat) :=
  match read_length bytes with
  | some (n, r) =>
    if n ≤ r.length then
      some ((r.take n).foldl (fun acc b => acc * 256 + b) 0, r.drop n)
    else none
  | none => none

/-- Modelled from the spec: `read_enumerates` — one byte. -/
def read_enumerates : List Nat → Option (Nat × List Nat) := read_choice

/-- Modelled from the spec: `read_number_of_set` — one byte. -/
def read_number_of_set : List Nat → Option (Nat × List Nat) := read_choice

/-- Modelled from the spec: the reading inverse of `write_octet_stream` —
a PER length prefix, then the expected bytes, failing on mismatch. -/
def read_octet_stream (expected : List Nat) (minimum : Nat) :
    List Nat → Option (List Nat) := fun bytes =>
  match read_length bytes with
  | some (_, r) =>
    if expected.length ≤ r.length ∧ r.take expected.length = expected then
      some (r.drop expected.length)
    else none
  | none => none

end Per

namespace Gcc

/-- `U16::LE` read of the structural kernel (the kernel itself lives in the
absent `src/model/data.rs`; modelled from the spec, section 4.2). -/
def readU16LE : List Nat → Option (Nat × List Nat)
  | b0 :: b1 :: r => some (b0 + 256 * b1, r)
  | _ => none

/-- `U32::LE` read of the structural kernel (modelled from the spec,
section 4.2). -/
def readU32LE : List Nat → Option (Nat × List Nat)
  | b0 :: b1 :: b2 :: b3 :: r =>
    some (b0 + 256 * (b1 + 256 * (b2 + 256 * b3)), r)
  | _ => none

/-- `channelCount` successive `U16::LE` channel ids of
`server_network_data`'s `channelIdArray` (src/core/gcc.rs lines 307-310). -/
def readChannelIds : Nat → List Nat → Option (List Nat)
  | 0, _ => some []
  | n + 1, b0 :: b1 :: r =>
    match readChannelIds n r with
    | some ids => some ((b0 + 256 * b1) :: ids)
    | none => none
  | _ + 1, _ => none

/-- The final HashMap lookups of `read_conference_create_response`
(src/core/gcc.rs lines 388-394): both the ScNet and ScCore entries must be
present. -/
def finalizeBlocks : Option Nat → Option (List Nat) → Option (Nat × List Nat)
  | some v, some ids => some (v, ids)
  | _, _ => none

/-- The block loop of `read_conference_create_response` (src/core/gcc.rs
lines 356-385): read a 4-byte header (`U16::LE` type then `U16::LE`
length, breaking when it cannot be read), take `length - 4` body bytes
(the u16 subtraction wraps), and dispatch on the type: `ScCore` (0x0C01)
stores the leading `rdpVersion` u32, `ScNet` (0x0C03) checks
`MCSChannelId = 1003` and collects the channel ids, `ScSecurity` (0x0C02)
reads its two u32 fields, anything else is skipped.  The fuel argument
(called with more fuel than bytes) stands for the source's unbounded
`loop`. -/
def readBlocks : Nat → List Nat → Option Nat → Option (List Nat) →
    Option (Nat × List Nat)
  | 0, _, vAcc, cAcc => finalizeBlocks vAcc cAcc
  | fuel + 1, t0 :: t1 :: l0 :: l1 :: rest, vAcc, cAcc =>
    let ty := t0 + 256 * t1
    let len := l0 + 256 * l1
    let blen := (len + 65532) % 65536
    if blen ≤ rest.length then
      let buffer := rest.take blen
      let rest2 := rest.drop blen
      if ty = 0x0C01 then
        match readU32LE buffer with
        | some (v, _) => readBlocks fuel rest2 (some v) cAcc
        | none => none
      else if ty = 0x0C03 then
        match readU16LE buffer with
        | some (mcs, b2) =>
          if mcs = 1003 then
            match readU16LE b2 with
            | some (cnt, b3) =>
              match readChannelIds cnt b3 with
              | some ids => readBlocks fuel rest2 vAcc (some ids)
              | none => none
            | none => none
          else none
        | none => none
      else if ty = 0x0C02 then
        if 8 ≤ buffer.length then readBlocks fuel rest2 vAcc cAcc else none
      else readBlocks fuel rest2 vAcc cAcc
    else none
  | _ + 1, _, vAcc, cAcc => finalizeBlocks vAcc cAcc

/-- Embedding of `read_conference_create_response` (src/core/gcc.rs lines
342-395) over a byte list, with the PER readers modelled from the spec:
the PER prelude, the `"McDn"` H.221 key, the user-data length, then the
server blocks; the result is the channel id list and
`Version::from(rdpVersion)`. -/
def read_conference_create_response (bytes : List Nat) :
    Option (List Nat × Version) :=
  match Per.read_choice bytes with
  | none => none
  | some (_, r1) =>
    match Per.read_object_identifier Per.t124OID r1 with
    | none => none
    | some r2 =>
      match Per.read_length r2 with
      | none => none
      | some (_, r3) =>
        match Per.read_choice r3 with
        | none => none
        | some (_, r4) =>
          match Per.read_integer_16 1001 r4 with
          | none => none
          | some (_, r5) =>
            match Per.read_integer r5 with
            | none => none
            | some (_, r6) =>
              match Per.read_enumerates r6 with
              | none => none
              | some (_, r7) =>
                match Per.read_number_of_set r7 with
                | none => none
                | some (_, r8) =>
                  match Per.read_choice r8 with
                  | none => none
                  | some (_, r9) =>
                    match Per.read_octet_stream Per.h221ScKey 4 r9 with
                    | none => none
                    | some r10 =>
                      match Per.read_length r10 with
                      | none => none
                      | some (len, r11) =>
                        match readBlocks ((r11.take len).length + 1)
                            (r11.take len) none none with
                        | some (v, ids) => some (ids, Version.fromU32 v)
                        | none => none

/-- A conference-create response whose ScCore block carries rdpVersion
`0x0008_0001` and whose ScNet block carries channel id 1004. -/
def ccRespRdp51 : List Nat :=
  [0,
   5, 0, 20, 124, 0, 1,
   0x2A,
   0,
   3, 0xE9,
   1, 0,
   0,
   1,
   0xC0,
   0, 0x4D, 0x63, 0x44, 0x6E,
   0x12,
   1, 0x0C, 8, 0, 1, 0, 8, 0,
   3, 0x0C, 0x0A, 0, 0xEB, 3, 1, 0, 0xEC, 3]

end Gcc

/-- Claim C10: `From<u32>` for `gcc::Version` is the transpose of the
enum's own discriminants — `0x0008_0001` maps to `RdpVersion5plus` and
`0x0008_0004` to `RdpVersion`, everything else to `Unknown` — so the
u32 round-trip returns the other known variant, never the original; and
`read_conference_create_response` reports `RdpVersion5plus` for a server
core block whose rdpVersion field is `0x0008_0001`. -/
theorem claim_C10_version_transpose :
    (Gcc.Version.fromU32 0x00080001 = Gcc.Version.RdpVersion5plus ∧
     Gcc.Version.fromU32 0x00080004 = Gcc.Version.RdpVersion ∧
     Gcc.Version.toU32 Gcc.Version.RdpVersion = 0x00080001 ∧
     Gcc.Version.toU32 Gcc.Version.RdpVersion5plus = 0x00080004 ∧
     (∀ n, n ≠ 0x00080001 → n ≠ 0x00080004 →
       Gcc.Version.fromU32 n = Gcc.Version.Unknown)) ∧
    Gcc.Version.fromU32 (Gcc.Version.toU32 Gcc.Version.RdpVersion) ≠
      Gcc.Version.RdpVersion ∧
    Gcc.Version.fromU32 (Gcc.Version.toU32 Gcc.Version.RdpVersion5plus) ≠
      Gcc.Version.RdpVersion5plus ∧
    Gcc.read_conference_create_response Gcc.ccRespRdp51 =
      some ([1004], Gcc.Version.RdpVersion5plus) := by
  refine ⟨⟨rfl, rfl, rfl, rfl, fun n h1 h2 => ?_⟩, by decide, by decide, by decide⟩
  unfold Gcc.Version.fromU32
  rw [if_neg h1, if_neg h2]

/-- A concrete run of the C10 theorem: 5 is neither discriminant and maps
to `Unknown`. -/
theorem claim_C10_witness :
    (5 : Nat) ≠ 0x00080001 ∧ (5 : Nat) ≠ 0x00080004 ∧
    Gcc.Version.fromU32 5 = Gcc.Version.Unknown :=
  ⟨by decide, by decide,
   claim_C10_version_transpose.1.2.2.2.2 5 (by decide) (by decide)⟩

/-- A concrete run of the C7 theorem: the alpha byte of pixel 0x1234. -/
theorem claim_C7_witness :
    List.get? [0x1234] 0 = some 0x1234 ∧
    (Rgb.rgb565torgb32 [0x1234]).get? (4 * 0 + 3) = some 0xff :=
  ⟨rfl, ((claim_C7_rgb565torgb32 [0x1234]).2 0 0x1234 rfl).1⟩
